import Mathlib

/-!
# errorwrap: the line-level rewrite engine of `cmd/errorwrap/main.go`

A shallow embedding of `wrapLine`, `tokenizeArgs`, `wrappable`, the two
regular expressions `noWrapMatcher` and `doubleWrap`, and the per-line body of
`wrapFile`.

Modelling conventions.

* A Go `string` is modelled by the list of its runes (`List Char`).  The tool
  runs `gofmt` on a file before `wrapFile` reads it (`rewriteErrors` comes
  first in `run`), and `gofmt` rejects text that is not valid UTF-8, so
  ranging over the runes of a string and appending `string(r)` reproduces it.
* A *line* is an element of `strings.Split(string(data), "\n")`; it holds no
  newline rune (`isLine`).
* `depth` in `tokenizeArgs` is a Go `int`; it moves by one per rune, so it
  stays within the length of the string and never wraps.  It is an `Int` here.
* A run-time panic (index out of range) is the outer `none` of an `Option`.
-/

namespace Errorwrap

/-- A Go string, as the sequence of its runes. -/
abbrev GoString := List Char

/-- A non-nil Go `error` value, identified by its message. -/
abbrev GoError := List Char

/-! ## The parts of package `strings` and `unicode` the program calls -/

/-- Rune test `unicode.IsSpace`: the Latin-1 spaces
`'\t' '\n' '\v' '\f' '\r' ' ' U+0085 U+00A0` and the runes of the Unicode
property White_Space above Latin-1. -/
def isSpace (c : Char) : Bool :=
  let n := c.toNat
  (9 ≤ n ∧ n ≤ 13) ∨ n = 0x20 ∨ n = 0x85 ∨ n = 0xA0 ∨ n = 0x1680 ∨
    (0x2000 ≤ n ∧ n ≤ 0x200A) ∨ n = 0x2028 ∨ n = 0x2029 ∨ n = 0x202F ∨
    n = 0x205F ∨ n = 0x3000

/-- Go `strings.TrimSpace`: drop leading and trailing white space. -/
def trimSpace (s : GoString) : GoString :=
  (s.dropWhile isSpace).rdropWhile isSpace

/-- Go `strings.HasPrefix s p`. -/
def startsWith (s p : GoString) : Bool :=
  p.isPrefixOf s

/-- Go `strings.TrimPrefix s p`: `s` without the leading `p`, when it has it. -/
def trimLeading (s p : GoString) : GoString :=
  if startsWith s p then s.drop p.length else s

/-- Go `strings.Join parts sep`. -/
def stringsJoin (parts : List GoString) (sep : GoString) : GoString :=
  sep.intercalate parts

/-- Worker of `stringsSplit`: `skip` runes of a separator just found are still
to be passed over, `cur` is the piece being collected. -/
def stringsSplitAux (sep : GoString) : Nat → GoString → GoString → List GoString
  | _, cur, [] => [cur]
  | skip + 1, cur, _ :: cs => stringsSplitAux sep skip cur cs
  | 0, cur, c :: cs =>
    if startsWith (c :: cs) sep then
      cur :: stringsSplitAux sep (sep.length - 1) [] cs
    else
      stringsSplitAux sep 0 (cur ++ [c]) cs

/-- Go `strings.Split s sep` for a non-empty separator: the pieces of `s`
between the successive, non-overlapping occurrences of `sep`, found left to
right. -/
def stringsSplit (s sep : GoString) : List GoString :=
  stringsSplitAux sep 0 [] s

/-! ## The part of package `regexp` the program uses

Both expressions of the program have the shape `lit(.*?)stop`, an escaped
literal, a lazy capture of runes other than newline, and a second escaped
literal. -/

/-- A regular expression `lit(.*?)stop`, both `lit` and `stop` literal text. -/
structure LazyRegex where
  lit : GoString
  stop : GoString

/-- The match of `(.*?)stop` at the head of the text: the shortest capture
first, each captured rune other than newline.  Gives the capture and the text
after `stop`. -/
def lazyCapture (stop : GoString) : GoString → Option (GoString × GoString)
  | [] => if startsWith [] stop then some ([], []) else none
  | c :: cs =>
    if startsWith (c :: cs) stop then some ([], (c :: cs).drop stop.length)
    else if c = '\n' then none
    else
      match lazyCapture stop cs with
      | some (cap, rest) => some (c :: cap, rest)
      | none => none

/-- The match of the whole expression anchored at the head of the text. -/
def LazyRegex.matchAt (re : LazyRegex) (s : GoString) : Option (GoString × GoString) :=
  if startsWith s re.lit then lazyCapture re.stop (s.drop re.lit.length) else none

/-- Go `(*Regexp).MatchString`: is there a match starting anywhere in `s`. -/
def LazyRegex.MatchString (re : LazyRegex) : GoString → Bool
  | [] => (re.matchAt []).isSome
  | c :: cs => (re.matchAt (c :: cs)).isSome || LazyRegex.MatchString re cs

/-- Worker of `ReplaceAllString` for the template `pre$1post`: `skip` runes of
the match just replaced are still to be passed over. -/
def LazyRegex.replaceAux (re : LazyRegex) (pre post : GoString) : Nat → GoString → GoString
  | _, [] => []
  | skip + 1, _ :: cs => LazyRegex.replaceAux re pre post skip cs
  | 0, c :: cs =>
    match re.matchAt (c :: cs) with
    | some (cap, _) =>
      pre ++ cap ++ post ++
        LazyRegex.replaceAux re pre post (re.lit.length + cap.length + re.stop.length - 1) cs
    | none => c :: LazyRegex.replaceAux re pre post 0 cs

/-- Go `(*Regexp).ReplaceAllString` with the template `pre$1post`: every
leftmost, non-overlapping match is replaced by `pre`, its capture, `post`. -/
def LazyRegex.ReplaceAllString (re : LazyRegex) (src pre post : GoString) : GoString :=
  re.replaceAux pre post 0 src

/-! ## The program -/

/-- Source: `var doubleWrap = regexp.MustCompile(...)`, the expression
`errors\.Wrap\(errors\.(.*?)\)\)`. -/
def doubleWrap : LazyRegex :=
  { lit := "errors.Wrap(errors.".toList, stop := "))".toList }

/-- Source: `var noWrapMatcher = regexp.MustCompile(...)`, the expression
`//(.*?)nowrap`. -/
def noWrapMatcher : LazyRegex :=
  { lit := "//".toList, stop := "nowrap".toList }

/-- Source: `func wrappable(arg string) bool`. -/
def wrappable (arg : GoString) : Bool :=
  if arg = "err".toList then true
  else if startsWith arg "errors.New".toList then true
  else if startsWith arg "fmt.Errorf".toList then true
  else if startsWith arg "log.Error".toList then true
  else false

/-- The variables of the scanning loop of `tokenizeArgs`. -/
structure TokState where
  tokens : List GoString
  i : Nat
  depth : Int
deriving DecidableEq, Repr

/-- One iteration of `for _, r := range args` in `tokenizeArgs`; `none` is the
panic of `tokens[i]` out of range. -/
def tokStep (st : TokState) (r : Char) : Option TokState :=
  if r = ',' ∧ st.depth = 0 then
    some { tokens := st.tokens ++ [[]], i := st.i + 1, depth := st.depth }
  else
    let depth := if r = '(' then st.depth + 1 else st.depth
    let depth := if r = ')' then depth - 1 else depth
    match st.tokens.get? st.i with
    | none => none
    | some t => some { tokens := st.tokens.set st.i (t ++ [r]), i := st.i, depth := depth }

/-- Source: `func tokenizeArgs(args string) []string`. -/
def tokenizeArgs (args : GoString) : Option (List GoString) :=
  match args.foldlM tokStep { tokens := [[]], i := 0, depth := 0 } with
  | none => none
  | some st => some (st.tokens.map trimSpace)

/-- The loop of `wrapLine` over `args`: a wrappable token becomes
`errors.Wrap(token)`. -/
def wrapArg (arg : GoString) : GoString :=
  if wrappable arg then "errors.Wrap(".toList ++ arg ++ ")".toList else arg

/-- Source: `func wrapLine(line string) (string, error)`.  The value is the
returned pair; the outer `none` is a panic. -/
def wrapLine (line : GoString) : Option (GoString × Option GoError) :=
  let trim := trimSpace line
  if !startsWith trim "return ".toList then some (line, none)
  else if noWrapMatcher.MatchString trim then some (line, none)
  else
    match tokenizeArgs (trimLeading trim "return ".toList) with
    | none => none
    | some args =>
      let args := args.map wrapArg
      match (stringsSplit line "return ".toList).get? 0 with
      | none => none
      | some part0 =>
        some (part0 ++ "return ".toList ++ stringsJoin args ", ".toList, none)

/-- What the body of the loop of `wrapFile` leaves. -/
inductive LineResult where
  | written (wl : GoString)
  | failed (err : GoError)
  | panicked
deriving DecidableEq, Repr

/-- The Collapse Pass: `doubleWrap.ReplaceAllString(wl, "errors.$1)")`. -/
def collapse (wl : GoString) : GoString :=
  doubleWrap.ReplaceAllString wl "errors.".toList ")".toList

/-- Source: the body of `for i, line := range lines` in `wrapFile`:
`wrapLine`, then the Collapse Pass on its result. -/
def processLine (line : GoString) : LineResult :=
  match wrapLine line with
  | none => LineResult.panicked
  | some (_, some err) => LineResult.failed err
  | some (wl, none) => LineResult.written (collapse wl)

/-- An element of `strings.Split(string(data), "\n")` holds no newline. -/
def isLine (s : GoString) : Prop := '\n' ∉ s

instance (s : GoString) : Decidable (isLine s) := by
  unfold isLine; infer_instance

/-! ## Definitions the statements are written with -/

/-- The depth counter of `tokenizeArgs` after one rune that is not a splitting
comma. -/
def nextDepth (d : Int) (c : Char) : Int :=
  if c = '(' then d + 1 else if c = ')' then d - 1 else d

/-- The depth counter after a whole text, started at `d`. -/
def endDepth (d : Int) (s : GoString) : Int :=
  s.foldl nextDepth d

/-- The text up to the first comma met at depth 0, the scan started at depth
`d`. -/
def firstTok : Int → GoString → GoString
  | _, [] => []
  | d, c :: cs => if c = ',' ∧ d = 0 then [] else c :: firstTok (nextDepth d c) cs

/-- The pieces after the first comma met at depth 0. -/
def restToks : Int → GoString → List GoString
  | _, [] => []
  | d, c :: cs =>
    if c = ',' ∧ d = 0 then firstTok d cs :: restToks d cs
    else restToks (nextDepth d c) cs

/-- The untrimmed tokens: the text cut at the commas met at depth 0. -/
def rawTokens (d : Int) (s : GoString) : List GoString :=
  firstTok d s :: restToks d s

/-- The number of `(` minus the number of `)` in a text. -/
def parenDepth (s : GoString) : Int :=
  (s.count '(' : Int) - (s.count ')' : Int)

/-- The number of top-level commas of a text: the positions that hold a `,`
and before which the running count of `(` minus `)` is 0. -/
def topLevelCommas (s : GoString) : Nat :=
  ((List.range s.length).filter
    (fun i => decide (s.get? i = some ',') && decide (parenDepth (s.take i) = 0))).length

/-- A text with all white space deleted. -/
def stripSpace (s : GoString) : GoString :=
  s.filter (fun c => !isSpace c)

/-- The white space a line starts with. -/
def leadingSpace (s : GoString) : GoString :=
  s.takeWhile isSpace

/-- A text holds a suppression marker: `//` followed, later, by `nowrap`. -/
def hasMarker (s : GoString) : Prop :=
  ∃ a b c : GoString, s = a ++ "//".toList ++ b ++ "nowrap".toList ++ c

/-- A text without parentheses. -/
def parenFree (s : GoString) : Prop := '(' ∉ s ∧ ')' ∉ s

/-- The text `p` occurs somewhere in the text `s`. -/
def occursIn (p s : GoString) : Prop := p <:+: s

instance (p s : GoString) : Decidable (occursIn p s) := by
  unfold occursIn; infer_instance

/-- The text that opens a wrap of a wrap. -/
def wrapOfWrap : GoString := "errors.Wrap(errors.Wrap(".toList

/-- The arguments of the recognized forms: `err`, a call `errors.New(a)`,
`fmt.Errorf(a)` or `log.Error(a)` with `a` free of parentheses, or a text that
`wrappable` rejects and that holds no parenthesis and no comma. -/
def recognizedArg (a : GoString) : Prop :=
  a = "err".toList ∨
  (∃ x, parenFree x ∧
    (a = "errors.New(".toList ++ x ++ ")".toList ∨
     a = "fmt.Errorf(".toList ++ x ++ ")".toList ∨
     a = "log.Error(".toList ++ x ++ ")".toList)) ∨
  (wrappable a = false ∧ parenFree a ∧ ',' ∉ a)

/-- What `wrapLine` puts after `return `: the trimmed tokens of the argument
text, the wrappable ones wrapped, joined with `, `. -/
def rewriteArgs (s : GoString) : GoString :=
  stringsJoin (((rawTokens 0 s).map trimSpace).map wrapArg) ", ".toList

/-! ## The shapes of the tokens `wrapLine` leaves on a line of recognized arguments -/

/-- A token left as it is: trimmed, rejected by `wrappable`, no parenthesis
and no comma. -/
def plainTok (t : GoString) : Prop :=
  parenFree t ∧ ',' ∉ t ∧ trimSpace t = t ∧ wrappable t = false

/-- A wrapped token without parentheses of its own: `errors.Wrap(u)`. -/
def wrapTok (t : GoString) : Prop :=
  ∃ u, t = "errors.Wrap(".toList ++ u ++ ")".toList ∧ parenFree u ∧ ',' ∉ u ∧
    wrappable u = true

/-- A wrapped call of a recognized form: `errors.Wrap(q(x))`. -/
def callTok (t : GoString) : Prop :=
  ∃ q x, t = "errors.Wrap(".toList ++ q ++ "(".toList ++ x ++ "))".toList ∧
    (q = "errors.New".toList ∨ q = "fmt.Errorf".toList ∨ q = "log.Error".toList) ∧
    parenFree x

/-- Each text followed by `, `, one after the other. -/
def joinEach : List GoString → GoString
  | [] => []
  | m :: l => m ++ ", ".toList ++ joinEach l

/-- What follows the first token in a joined list: nothing, or `, ` and the
other tokens joined. -/
def tailText : List GoString → GoString
  | [] => []
  | t :: l => ", ".toList ++ stringsJoin (t :: l) ", ".toList

/-- The scan of `tokenizeArgs`, started at depth `d`, goes through `a` without
splitting and ends at depth `e`. -/
def passes (d : Int) (a : GoString) (e : Int) : Prop :=
  restToks d a = [] ∧ endDepth d a = e

/-- A text with balanced parentheses: the running count of `(` minus `)` is
never negative and is 0 at the end. -/
def balanced (s : GoString) : Prop :=
  (∀ i, i ≤ s.length → 0 ≤ parenDepth (s.take i)) ∧ parenDepth s = 0

instance (s : GoString) : Decidable (balanced s) := by
  unfold balanced; infer_instance

/-- What a loop over the lines leaves: its result, the error it returned, or
a panic. -/
inductive Outcome (α : Type) where
  | done (a : α)
  | failed (err : GoError)
  | panicked
deriving DecidableEq, Repr

/-- Source: `for i, line := range lines` in `wrapFile`: each line is replaced
by its processed form; the first error ends the loop. -/
def processLines : List GoString → Outcome (List GoString)
  | [] => Outcome.done []
  | line :: rest =>
    match processLine line with
    | LineResult.written wl =>
      match processLines rest with
      | Outcome.done wls => Outcome.done (wl :: wls)
      | Outcome.failed err => Outcome.failed err
      | Outcome.panicked => Outcome.panicked
    | LineResult.failed err => Outcome.failed err
    | LineResult.panicked => Outcome.panicked

/-- Source: the text transform of `wrapFile`, from the data read to the data
written: `strings.Split(string(data), "\n")`, the loop over the lines,
`strings.Join(lines, "\n")`. -/
def wrapFileText (data : GoString) : Outcome GoString :=
  match processLines (stringsSplit data "\n".toList) with
  | Outcome.done lines => Outcome.done (stringsJoin lines "\n".toList)
  | Outcome.failed err => Outcome.failed err
  | Outcome.panicked => Outcome.panicked

end Errorwrap

/-! # Properties -/

namespace Errorwrap

@[simp] theorem startsWith_nil (s : GoString) : startsWith s [] = true := by
  simp [startsWith]

@[simp] theorem startsWith_nil_cons (p : Char) (ps : GoString) :
    startsWith [] (p :: ps) = false := by
  simp [startsWith]

@[simp] theorem startsWith_cons_cons (c p : Char) (s ps : GoString) :
    startsWith (c :: s) (p :: ps) = (decide (p = c) && startsWith s ps) := by
  by_cases h : p = c <;> simp [startsWith, List.isPrefixOf, h]

theorem startsWith_iff (s p : GoString) : startsWith s p = true ↔ ∃ t, s = p ++ t := by
  induction p generalizing s with
  | nil => simp
  | cons a p ih =>
    cases s with
    | nil => simp
    | cons c s =>
      simp only [startsWith_cons_cons, Bool.and_eq_true, decide_eq_true_eq, ih, List.cons_append,
        List.cons.injEq]
      constructor
      · rintro ⟨rfl, t, rfl⟩; exact ⟨t, rfl, rfl⟩
      · rintro ⟨t, rfl, rfl⟩; exact ⟨rfl, t, rfl⟩

theorem startsWith_append (p t : GoString) : startsWith (p ++ t) p = true :=
  (startsWith_iff _ _).2 ⟨t, rfl⟩

theorem trimLeading_append (p t : GoString) : trimLeading (p ++ t) p = t := by
  simp [trimLeading, startsWith_append]

/-! ## `strings.Split` -/

theorem stringsSplitAux_ne_nil (sep : GoString) (s : GoString) :
    ∀ (k : Nat) (cur : GoString), stringsSplitAux sep k cur s ≠ [] := by
  induction s with
  | nil => intro k cur; simp [stringsSplitAux]
  | cons c cs ih =>
    intro k cur
    cases k with
    | zero =>
      simp only [stringsSplitAux]
      split
      · simp
      · exact ih _ _
    | succ k => simp only [stringsSplitAux]; exact ih _ _

theorem stringsSplitAux_head (p : Char) (ps rest : GoString) (ws : GoString) :
    ∀ (cur : GoString), (∀ c ∈ ws, c ≠ p) →
      (stringsSplitAux (p :: ps) 0 cur (ws ++ (p :: ps) ++ rest)).get? 0 = some (cur ++ ws) := by
  induction ws with
  | nil =>
    intro cur _
    have : startsWith (p :: (ps ++ rest)) (p :: ps) = true := by
      simpa using startsWith_append (p :: ps) rest
    simp [stringsSplitAux, this]
  | cons c ws ih =>
    intro cur h
    have hc : c ≠ p := h c (List.mem_cons_self _ _)
    have hne : ¬ p = c := fun e => hc e.symm
    have := ih (cur ++ [c]) (fun x hx => h x (List.mem_cons_of_mem _ hx))
    simp [stringsSplitAux, hne] at this ⊢
    exact this

/-! ## The regular expressions -/

theorem lazyCapture_some (stop : GoString) (s : GoString) :
    ∀ (cap rest : GoString), lazyCapture stop s = some (cap, rest) →
      s = cap ++ stop ++ rest ∧ '\n' ∉ cap := by
  induction s with
  | nil =>
    intro cap rest h
    cases stop with
    | nil => simp [lazyCapture] at h; simp [h]
    | cons a stop => simp [lazyCapture] at h
  | cons c cs ih =>
    intro cap rest h
    unfold lazyCapture at h
    split at h
    · rename_i hp
      obtain ⟨t, ht⟩ := (startsWith_iff _ _).1 hp
      simp only [Option.some.injEq, Prod.mk.injEq] at h
      obtain ⟨rfl, rfl⟩ := h
      rw [ht]; simp
    · split at h
      · simp at h
      · rename_i hnl
        cases hrec : lazyCapture stop cs with
        | none => simp [hrec] at h
        | some r =>
          obtain ⟨cap1, rest1⟩ := r
          simp only [hrec, Option.some.injEq, Prod.mk.injEq] at h
          obtain ⟨rfl, rfl⟩ := h
          obtain ⟨e, hn⟩ := ih _ _ hrec
          refine ⟨by simp [e], ?_⟩
          simp only [List.mem_cons, not_or]
          exact ⟨fun e => hnl e.symm, hn⟩

theorem lazyCapture_cons (stop : GoString) (c : Char) (cs : GoString) :
    lazyCapture stop (c :: cs) =
      if startsWith (c :: cs) stop then some ([], (c :: cs).drop stop.length)
      else if c = '\n' then none
      else (lazyCapture stop cs).map (fun r => (c :: r.1, r.2)) := by
  rw [lazyCapture]
  cases lazyCapture stop cs <;> rfl

theorem lazyCapture_isSome (stop : GoString) (b c : GoString) (hb : '\n' ∉ b) :
    (lazyCapture stop (b ++ (stop ++ c))).isSome = true := by
  induction b with
  | nil =>
    cases h : stop ++ c with
    | nil =>
      have : stop = [] := by
        cases stop with
        | nil => rfl
        | cons a s => simp at h
      simp [lazyCapture, this]
    | cons x xs =>
      have hp : startsWith (x :: xs) stop = true := by
        rw [← h]; exact startsWith_append stop c
      simp [lazyCapture_cons, hp]
  | cons x b ih =>
    have hx : ¬ x = '\n' := by
      intro e; apply hb; simp [e]
    have hb2 : '\n' ∉ b := fun h => hb (List.mem_cons_of_mem _ h)
    have := ih hb2
    rw [List.cons_append, lazyCapture_cons]
    by_cases hp : startsWith (x :: (b ++ (stop ++ c))) stop = true
    · simp [hp]
    · simp only [hp, hx, if_false]
      simpa using this

theorem matchAt_some (re : LazyRegex) (s cap rest : GoString)
    (h : re.matchAt s = some (cap, rest)) :
    s = re.lit ++ cap ++ re.stop ++ rest ∧ '\n' ∉ cap := by
  unfold LazyRegex.matchAt at h
  split at h
  · rename_i hp
    obtain ⟨t, rfl⟩ := (startsWith_iff _ _).1 hp
    simp only [List.drop_left] at h
    obtain ⟨e, hn⟩ := lazyCapture_some _ _ _ _ h
    exact ⟨by simp [e], hn⟩
  · simp at h

theorem matchString_of_matchAt (re : LazyRegex) (s : GoString)
    (h : (re.matchAt s).isSome = true) : re.MatchString s = true := by
  cases s with
  | nil => simpa [LazyRegex.MatchString] using h
  | cons c cs => simp [LazyRegex.MatchString, h]

theorem matchString_cons (re : LazyRegex) (c : Char) (s : GoString)
    (h : re.MatchString s = true) : re.MatchString (c :: s) = true := by
  simp [LazyRegex.MatchString, h]

theorem matchString_complete (re : LazyRegex) (a b c : GoString) (hb : '\n' ∉ b) :
    re.MatchString (a ++ re.lit ++ b ++ re.stop ++ c) = true := by
  induction a with
  | nil =>
    apply matchString_of_matchAt
    have hp : startsWith ([] ++ re.lit ++ b ++ re.stop ++ c) re.lit = true := by
      simpa using startsWith_append re.lit (b ++ re.stop ++ c)
    have hd : ([] ++ re.lit ++ b ++ re.stop ++ c).drop re.lit.length = b ++ (re.stop ++ c) := by
      simp [List.append_assoc]
    simp only [LazyRegex.matchAt, hp, if_true, hd]
    exact lazyCapture_isSome _ _ _ hb
  | cons x a ih => exact matchString_cons _ _ _ ih

theorem matchString_sound (re : LazyRegex) (s : GoString) (h : re.MatchString s = true) :
    ∃ a b c, s = a ++ re.lit ++ b ++ re.stop ++ c := by
  induction s with
  | nil =>
    simp only [LazyRegex.MatchString] at h
    cases hm : re.matchAt [] with
    | none => simp [hm] at h
    | some r =>
      obtain ⟨e, _⟩ := matchAt_some re _ r.1 r.2 hm
      exact ⟨[], r.1, r.2, by simpa using e⟩
  | cons x s ih =>
    simp only [LazyRegex.MatchString, Bool.or_eq_true] at h
    rcases h with h | h
    · cases hm : re.matchAt (x :: s) with
      | none => simp [hm] at h
      | some r =>
        obtain ⟨e, _⟩ := matchAt_some re _ r.1 r.2 hm
        exact ⟨[], r.1, r.2, by simpa using e⟩
    · obtain ⟨a, b, c, e⟩ := ih h
      exact ⟨x :: a, b, c, by simp [e]⟩

theorem hasMarker_of_match (s : GoString) (h : noWrapMatcher.MatchString s = true) :
    hasMarker s := by
  obtain ⟨a, b, c, e⟩ := matchString_sound _ _ h
  exact ⟨a, b, c, e⟩

theorem match_of_hasMarker (s : GoString) (hl : isLine s) (h : hasMarker s) :
    noWrapMatcher.MatchString s = true := by
  obtain ⟨a, b, c, e⟩ := h
  have hb : '\n' ∉ b := by
    intro hb; apply hl; rw [e]; simp [hb]
  have := matchString_complete noWrapMatcher a b c hb
  rw [e]; exact this

/-! ## White space -/

theorem dropWhile_append_of_not {p : Char → Bool} (a : GoString) (x : Char) (r : GoString)
    (hx : p x = false) : (a ++ x :: r).dropWhile p = a.dropWhile p ++ x :: r := by
  induction a with
  | nil => simp [List.dropWhile, hx]
  | cons c a ih =>
    by_cases hc : p c = true
    · simp [List.dropWhile, hc, ih]
    · simp [List.dropWhile, hc]

theorem rdropWhile_append_of_not {p : Char → Bool} (a : GoString) (x : Char) (r : GoString)
    (hx : p x = false) : (a ++ x :: r).rdropWhile p = a ++ x :: r.rdropWhile p := by
  induction r using List.reverseRecOn with
  | nil =>
    simp [List.rdropWhile_concat, hx]
  | append_singleton r c ih =>
    have e : a ++ x :: (r ++ [c]) = (a ++ x :: r) ++ [c] := by simp
    have e2 : x :: (r ++ [c]) = (x :: r) ++ [c] := by simp
    by_cases hc : p c = true
    · rw [e, List.rdropWhile_concat_pos _ _ _ hc, ih, List.rdropWhile_concat_pos _ _ _ hc]
    · rw [e, List.rdropWhile_concat_neg _ _ _ hc, List.rdropWhile_concat_neg _ _ _ hc]
      simp

/-! ## The scanning loop of `tokenizeArgs` -/

theorem tokStep_comma (ts : List GoString) (i : Nat) :
    tokStep { tokens := ts, i := i, depth := 0 } ',' =
      some { tokens := ts ++ [[]], i := i + 1, depth := 0 } := by
  simp [tokStep]

theorem tokStep_other (ts : List GoString) (t : GoString) (d : Int) (c : Char)
    (h : ¬ (c = ',' ∧ d = 0)) :
    tokStep { tokens := ts ++ [t], i := ts.length, depth := d } c =
      some { tokens := ts ++ [t ++ [c]], i := ts.length, depth := nextDepth d c } := by
  have hd : (if c = ')' then (if c = '(' then d + 1 else d) - 1 else if c = '(' then d + 1 else d)
      = nextDepth d c := by
    unfold nextDepth
    by_cases h1 : c = '(' <;> by_cases h2 : c = ')' <;> simp_all
  simp only [tokStep, h, if_false, hd]
  simp

theorem foldlM_tokStep (s : GoString) : ∀ (ts : List GoString) (t : GoString) (d : Int),
    s.foldlM tokStep { tokens := ts ++ [t], i := ts.length, depth := d } =
      some { tokens := ts ++ (t ++ firstTok d s) :: restToks d s,
             i := ts.length + (restToks d s).length,
             depth := endDepth d s } := by
  induction s with
  | nil => intro ts t d; simp [firstTok, restToks, endDepth]
  | cons c cs ih =>
    intro ts t d
    by_cases h : c = ',' ∧ d = 0
    · obtain ⟨rfl, rfl⟩ := h
      have := ih (ts ++ [t]) [] 0
      simp only [List.length_append, List.length_singleton] at this
      rw [List.foldlM_cons, tokStep_comma]
      simp only [bind, Option.bind, this]
      simp [firstTok, restToks, endDepth, nextDepth]
      omega
    · have := ih ts (t ++ [c]) (nextDepth d c)
      rw [List.foldlM_cons, tokStep_other ts t d c h]
      simp only [bind, Option.bind, this]
      simp [firstTok, restToks, endDepth, h]

theorem tokenizeArgs_eq (s : GoString) :
    tokenizeArgs s = some ((rawTokens 0 s).map trimSpace) := by
  have := foldlM_tokStep s [] [] 0
  simp only [List.nil_append, List.length_nil] at this
  simp [tokenizeArgs, this, rawTokens]

/-! ## `wrapLine` -/

theorem line_eq_of_trim (line rest : GoString)
    (h : trimSpace line = "return ".toList ++ rest) :
    ∃ w, line = leadingSpace line ++ "return ".toList ++ (rest ++ w) := by
  obtain ⟨w, hw⟩ : trimSpace line <+: line.dropWhile isSpace := List.rdropWhile_prefix _ _
  refine ⟨w, ?_⟩
  have := (List.takeWhile_append_dropWhile isSpace line).symm
  rw [← hw, h] at this
  simpa [leadingSpace, List.append_assoc] using this

theorem part0_of_trim (line rest : GoString)
    (h : trimSpace line = "return ".toList ++ rest) :
    (stringsSplit line "return ".toList).get? 0 = some (leadingSpace line) := by
  obtain ⟨w, hw⟩ := line_eq_of_trim line rest h
  have hsp : ∀ c ∈ leadingSpace line, c ≠ 'r' := by
    intro c hc
    have : isSpace c = true := List.mem_takeWhile_imp hc
    rintro rfl
    exact absurd this (by decide)
  have := stringsSplitAux_head 'r' "eturn ".toList (rest ++ w) (leadingSpace line) [] hsp
  unfold stringsSplit
  nth_rewrite 1 [hw]
  simpa using this

/-- What `wrapLine` returns on a `return` line that holds no marker match. -/
theorem wrapLine_eq (line rest : GoString)
    (h : trimSpace line = "return ".toList ++ rest)
    (hm : noWrapMatcher.MatchString (trimSpace line) = false) :
    wrapLine line = some (leadingSpace line ++ "return ".toList ++
      stringsJoin (((rawTokens 0 rest).map trimSpace).map wrapArg) ", ".toList, none) := by
  have hp : startsWith (trimSpace line) "return ".toList = true :=
    (startsWith_iff _ _).2 ⟨rest, h⟩
  have ht : trimLeading (trimSpace line) "return ".toList = rest := by
    rw [h]; exact trimLeading_append _ _
  unfold wrapLine
  simp only [hp, hm, ht, tokenizeArgs_eq, part0_of_trim line rest h]
  simp

theorem wrapLine_of_not_return (line : GoString)
    (h : startsWith (trimSpace line) "return ".toList = false) :
    wrapLine line = some (line, none) := by
  unfold wrapLine
  simp only [h]
  simp

theorem wrapLine_of_match (line : GoString)
    (h : noWrapMatcher.MatchString (trimSpace line) = true) :
    wrapLine line = some (line, none) := by
  unfold wrapLine
  by_cases hp : startsWith (trimSpace line) "return ".toList = true <;> simp only [hp, h] <;> simp

theorem hasMarker_trimSpace (s : GoString) (h : hasMarker s) : hasMarker (trimSpace s) := by
  obtain ⟨a, b, c, rfl⟩ := h
  refine ⟨a.dropWhile isSpace, b, c.rdropWhile isSpace, ?_⟩
  have e1 : a ++ "//".toList ++ b ++ "nowrap".toList ++ c =
      a ++ '/' :: ('/' :: (b ++ "nowra".toList) ++ 'p' :: c) := by simp
  have e2 : a.dropWhile isSpace ++ '/' :: ('/' :: (b ++ "nowra".toList) ++ 'p' :: c) =
      (a.dropWhile isSpace ++ '/' :: '/' :: (b ++ "nowra".toList)) ++ 'p' :: c := by simp
  rw [trimSpace, e1, dropWhile_append_of_not _ _ _ (by decide), e2,
    rdropWhile_append_of_not _ _ _ (by decide)]
  simp

theorem isLine_trimSpace (s : GoString) (h : isLine s) : isLine (trimSpace s) := by
  intro hm
  apply h
  have h1 : trimSpace s <+: s.dropWhile isSpace := List.rdropWhile_prefix _ _
  have h2 : s.dropWhile isSpace <:+ s := List.dropWhile_suffix _
  exact h2.subset (h1.subset hm)

/-! ## The Collapse Pass -/

theorem replaceAux_skip (re : LazyRegex) (pre post : GoString) (s : GoString) :
    ∀ k : Nat, re.replaceAux pre post k s = re.replaceAux pre post 0 (s.drop k) := by
  induction s with
  | nil => intro k; simp [LazyRegex.replaceAux]
  | cons c cs ih =>
    intro k
    cases k with
    | zero => simp
    | succ k => simp [LazyRegex.replaceAux, ih k]

@[simp] theorem collapse_nil : collapse [] = [] := by
  simp [collapse, LazyRegex.ReplaceAllString, LazyRegex.replaceAux]

theorem collapse_of_none (c : Char) (s : GoString) (h : doubleWrap.matchAt (c :: s) = none) :
    collapse (c :: s) = c :: collapse s := by
  simp [collapse, LazyRegex.ReplaceAllString, LazyRegex.replaceAux, h]

theorem collapse_of_some (s cap rest : GoString) (h : doubleWrap.matchAt s = some (cap, rest)) :
    collapse s = "errors.".toList ++ cap ++ ")".toList ++ collapse rest := by
  obtain ⟨e, _⟩ := matchAt_some _ _ _ _ h
  cases s with
  | nil => simp [doubleWrap] at e
  | cons c cs =>
    have hd : cs.drop (doubleWrap.lit.length + cap.length + doubleWrap.stop.length - 1) = rest := by
      have : (c :: cs).drop (doubleWrap.lit.length + cap.length + doubleWrap.stop.length) = rest := by
        rw [e]
        have : doubleWrap.lit.length + cap.length + doubleWrap.stop.length
            = (doubleWrap.lit ++ cap ++ doubleWrap.stop).length := by simp [Nat.add_assoc]
        rw [this, List.drop_left]
      have h2 : doubleWrap.lit.length + cap.length + doubleWrap.stop.length
          = (doubleWrap.lit.length + cap.length + doubleWrap.stop.length - 1) + 1 := by
        simp [doubleWrap]
      rw [h2, List.drop_succ_cons] at this
      exact this
    simp only [collapse, LazyRegex.ReplaceAllString, LazyRegex.replaceAux, h]
    rw [replaceAux_skip, hd]

theorem matchAt_none_of_not_startsWith (s : GoString)
    (h : startsWith s "errors.Wrap(errors.".toList = false) : doubleWrap.matchAt s = none := by
  unfold LazyRegex.matchAt
  have : startsWith s doubleWrap.lit = false := h
  simp [this]

theorem collapse_skip (c : Char) (s : GoString)
    (h : startsWith (c :: s) "errors.Wrap(errors.".toList = false) :
    collapse (c :: s) = c :: collapse s :=
  collapse_of_none c s (matchAt_none_of_not_startsWith _ h)

theorem startsWith_mem (s p : GoString) (h : startsWith s p = true) (c : Char) (hc : c ∈ p) :
    c ∈ s := by
  obtain ⟨t, rfl⟩ := (startsWith_iff _ _).1 h
  simp [hc]

theorem collapse_eq_self_of_no_open (s : GoString) (h : '(' ∉ s) : collapse s = s := by
  induction s with
  | nil => simp
  | cons c cs ih =>
    have hn : startsWith (c :: cs) "errors.Wrap(errors.".toList = false := by
      cases hs : startsWith (c :: cs) "errors.Wrap(errors.".toList with
      | false => rfl
      | true => exact absurd (startsWith_mem _ _ hs '(' (by decide)) h
    rw [collapse_skip c cs hn, ih (fun hc => h (List.mem_cons_of_mem _ hc))]

theorem lazyCapture_close (a rest : GoString) (h1 : ')' ∉ a) (h2 : '\n' ∉ a) :
    lazyCapture "))".toList (a ++ "))".toList ++ rest) = some (a, rest) := by
  induction a with
  | nil => simp [lazyCapture_cons]
  | cons x a ih =>
    have hx1 : ¬ ')' = x := fun e => h1 (e ▸ List.mem_cons_self _ _)
    have hx2 : ¬ x = '\n' := fun e => h2 (e ▸ List.mem_cons_self _ _)
    have := ih (fun h => h1 (List.mem_cons_of_mem _ h)) (fun h => h2 (List.mem_cons_of_mem _ h))
    simp only [List.cons_append, List.append_assoc] at this ⊢
    rw [lazyCapture_cons, this]
    simp [hx1, hx2]

/-! ## Trimming -/

theorem trimSpace_of_ends (x y : Char) (m : GoString) (hx : isSpace x = false)
    (hy : isSpace y = false) : trimSpace (x :: (m ++ [y])) = x :: (m ++ [y]) := by
  have e : x :: (m ++ [y]) = (x :: m) ++ [y] := rfl
  rw [trimSpace, List.dropWhile_cons_of_neg (by simp [hx]), e,
    List.rdropWhile_concat_neg _ _ _ (by simp [hy])]

theorem trimSpace_space_cons (x : Char) (s : GoString) (hx : isSpace x = true) :
    trimSpace (x :: s) = trimSpace s := by
  rw [trimSpace, List.dropWhile_cons_of_pos hx, trimSpace]

/-! ## Tokens of a text without parentheses, inside a call -/

theorem nextDepth_of_parenFree (d : Int) (c : Char) (h1 : c ≠ '(') (h2 : c ≠ ')') :
    nextDepth d c = d := by
  simp [nextDepth, h1, h2]

theorem firstTok_inner (a s : GoString) (d : Int) (hd : d ≠ 0) (hp : parenFree a) :
    firstTok d (a ++ s) = a ++ firstTok d s := by
  induction a with
  | nil => simp
  | cons c a ih =>
    have h1 : c ≠ '(' := fun e => hp.1 (e ▸ List.mem_cons_self _ _)
    have h2 : c ≠ ')' := fun e => hp.2 (e ▸ List.mem_cons_self _ _)
    have hp2 : parenFree a :=
      ⟨fun h => hp.1 (List.mem_cons_of_mem _ h), fun h => hp.2 (List.mem_cons_of_mem _ h)⟩
    simp [firstTok, hd, nextDepth_of_parenFree d c h1 h2, ih hp2]

theorem restToks_inner (a s : GoString) (d : Int) (hd : d ≠ 0) (hp : parenFree a) :
    restToks d (a ++ s) = restToks d s := by
  induction a with
  | nil => simp
  | cons c a ih =>
    have h1 : c ≠ '(' := fun e => hp.1 (e ▸ List.mem_cons_self _ _)
    have h2 : c ≠ ')' := fun e => hp.2 (e ▸ List.mem_cons_self _ _)
    have hp2 : parenFree a :=
      ⟨fun h => hp.1 (List.mem_cons_of_mem _ h), fun h => hp.2 (List.mem_cons_of_mem _ h)⟩
    simp [restToks, hd, nextDepth_of_parenFree d c h1 h2, ih hp2]

theorem processLine_of_wrapLine (line wl : GoString) (h : wrapLine line = some (wl, none)) :
    processLine line = LineResult.written (collapse wl) := by
  simp [processLine, h]

theorem errorsNew_line (a : GoString) (hp : parenFree a) (hl : isLine a) :
    processLine ("return foo, errors.New(".toList ++ a ++ ")".toList) =
      LineResult.written ("return foo, errors.New(".toList ++ a ++ ")".toList) := by
  have hc : collapse ("return foo, errors.New(".toList ++ a ++ ")".toList) =
      "return foo, errors.New(".toList ++ a ++ ")".toList := by
    have : collapse (a ++ [')']) = a ++ [')'] :=
      collapse_eq_self_of_no_open _ (by simp [hp.1])
    simp [collapse_skip, this]
  have htrim : trimSpace ("return foo, errors.New(".toList ++ a ++ ")".toList) =
      "return ".toList ++ ("foo, errors.New(".toList ++ a ++ ")".toList) := by
    have := trimSpace_of_ends 'r' ')' ("eturn foo, errors.New(".toList ++ a) (by decide) (by decide)
    simpa using this
  by_cases hm : noWrapMatcher.MatchString
      (trimSpace ("return foo, errors.New(".toList ++ a ++ ")".toList)) = true
  · rw [processLine_of_wrapLine _ _ (wrapLine_of_match _ hm), hc]
  · have hm2 := Bool.eq_false_iff.2 hm
    rw [processLine_of_wrapLine _ _ (wrapLine_eq _ _ htrim hm2)]
    have hlead : leadingSpace ("return foo, errors.New(".toList ++ a ++ ")".toList) = [] := by
      simp [leadingSpace, List.takeWhile, show isSpace 'r' = false by decide]
    have htok : (rawTokens 0 ("foo, errors.New(".toList ++ a ++ ")".toList)).map trimSpace =
        ["foo".toList, "errors.New(".toList ++ a ++ ")".toList] := by
      have h1 := firstTok_inner a [')'] 1 (by decide) hp
      have h2 := restToks_inner a [')'] 1 (by decide) hp
      have h3 := trimSpace_of_ends 'e' ')' ("rrors.New(".toList ++ a) (by decide) (by decide)
      have h4 := trimSpace_of_ends 'f' 'o' ['o'] (by decide) (by decide)
      simp [rawTokens, firstTok, restToks, nextDepth, h1, h2] at h3 h4 ⊢
      refine ⟨h4, ?_⟩
      rw [trimSpace_space_cons _ _ (by decide)]
      exact h3
    rw [hlead, htok]
    have hcap := lazyCapture_close ("New(".toList ++ a) [] (by simp [hp.2]) (by
      have : '\n' ∉ a := hl
      simp [this])
    have hmatch : doubleWrap.matchAt ("errors.Wrap(errors.New(".toList ++ a ++ "))".toList) =
        some ("New(".toList ++ a, []) := by
      simp [LazyRegex.matchAt, doubleWrap] at hcap ⊢
      exact hcap
    have := collapse_of_some _ _ _ hmatch
    simp [wrapArg, wrappable, stringsJoin, List.intercalate, collapse_skip] at this ⊢
    exact this

/-! ## The claims about `wrapLine` and the Collapse Pass -/

/-- C1: on a line whose trimmed text is `return ` followed by `rest` and holds
no suppression marker, `wrapLine` returns the line's leading white space, then
`return `, then the tokens of `tokenizeArgs rest` joined with `, `, each
wrappable token `t` replaced by `errors.Wrap(t)` and the others left as they
are; the error is nil. -/
theorem wrapLine_return_line (line rest : GoString)
    (hret : trimSpace line = "return ".toList ++ rest)
    (hno : ¬ hasMarker (trimSpace line)) :
    ∃ toks, tokenizeArgs rest = some toks ∧
      wrapLine line = some (leadingSpace line ++ "return ".toList ++
        stringsJoin
          (toks.map fun t =>
            if wrappable t = true then "errors.Wrap(".toList ++ t ++ ")".toList else t)
          ", ".toList, none) := by
  refine ⟨(rawTokens 0 rest).map trimSpace, tokenizeArgs_eq rest, ?_⟩
  have hm : noWrapMatcher.MatchString (trimSpace line) = false := by
    cases h : noWrapMatcher.MatchString (trimSpace line) with
    | false => rfl
    | true => exact absurd (hasMarker_of_match _ h) hno
  rw [wrapLine_eq line rest hret hm]
  rfl

/-- C1, at the line `return nil, err`: the result is
`return nil, errors.Wrap(err)`. -/
theorem wrapLine_return_line_witness :
    trimSpace "return nil, err".toList = "return ".toList ++ "nil, err".toList ∧
    ¬ hasMarker (trimSpace "return nil, err".toList) ∧
    (∃ toks, tokenizeArgs "nil, err".toList = some toks ∧
      wrapLine "return nil, err".toList = some (leadingSpace "return nil, err".toList ++
        "return ".toList ++
        stringsJoin
          (toks.map fun t =>
            if wrappable t = true then "errors.Wrap(".toList ++ t ++ ")".toList else t)
          ", ".toList, none)) ∧
    wrapLine "return nil, err".toList = some ("return nil, errors.Wrap(err)".toList, none) :=
  have hno : ¬ hasMarker (trimSpace "return nil, err".toList) := fun h =>
    absurd (match_of_hasMarker _ (by decide) h) (by decide)
  ⟨by decide, hno, wrapLine_return_line _ _ (by decide) hno, by decide⟩

/-- C2: a line whose trimmed text does not begin with `return ` is returned
as it is, leading and trailing white space included, with a nil error. -/
theorem wrapLine_other_line (line : GoString)
    (h : startsWith (trimSpace line) "return ".toList = false) :
    wrapLine line = some (line, none) :=
  wrapLine_of_not_return line h

/-- C2, at the line `  x := f()  `. -/
theorem wrapLine_other_line_witness :
    startsWith (trimSpace "  x := f()  ".toList) "return ".toList = false ∧
    wrapLine "  x := f()  ".toList = some ("  x := f()  ".toList, none) :=
  ⟨by decide, wrapLine_other_line _ (by decide)⟩

/-- C3: a line (no newline) in which `//` is followed, later, by `nowrap` is
returned by `wrapLine` as it is, so the Collapse Pass runs on the original
line. -/
theorem wrapLine_marker_line (line : GoString) (hl : isLine line) (hm : hasMarker line) :
    wrapLine line = some (line, none) ∧
    processLine line = LineResult.written (collapse line) := by
  have h := wrapLine_of_match line
    (match_of_hasMarker _ (isLine_trimSpace _ hl) (hasMarker_trimSpace _ hm))
  exact ⟨h, processLine_of_wrapLine _ _ h⟩

/-- C3, at `return err // nowrap` and at the same line after a tab. -/
theorem wrapLine_marker_line_witness :
    (isLine "return err // nowrap".toList ∧ hasMarker "return err // nowrap".toList ∧
      wrapLine "return err // nowrap".toList = some ("return err // nowrap".toList, none) ∧
      processLine "return err // nowrap".toList =
        LineResult.written (collapse "return err // nowrap".toList)) ∧
    (isLine "\treturn err // nowrap".toList ∧ hasMarker "\treturn err // nowrap".toList ∧
      wrapLine "\treturn err // nowrap".toList = some ("\treturn err // nowrap".toList, none) ∧
      processLine "\treturn err // nowrap".toList =
        LineResult.written (collapse "\treturn err // nowrap".toList)) :=
  have m1 : hasMarker "return err // nowrap".toList :=
    ⟨"return err ".toList, " ".toList, [], by decide⟩
  have m2 : hasMarker "\treturn err // nowrap".toList :=
    ⟨"\treturn err ".toList, " ".toList, [], by decide⟩
  ⟨⟨by decide, m1, wrapLine_marker_line _ (by decide) m1⟩,
   ⟨by decide, m2, wrapLine_marker_line _ (by decide) m2⟩⟩

/-- C4 as stated fails: the processed form of `return foo, errors.New("bad")`
is not `return foo, errors.Wrap(errors.New("bad"))`. -/
theorem processLine_errorsNew_not_wrapped :
    processLine "return foo, errors.New(\"bad\")".toList ≠
      LineResult.written "return foo, errors.Wrap(errors.New(\"bad\"))".toList := by
  decide

/-- C4, amended: `wrapLine` turns `return foo, errors.New("bad")` into
`return foo, errors.Wrap(errors.New("bad"))` and the Collapse Pass takes that
wrap off again; for every argument text `a` without parentheses (and, being
part of a line, without newline) the processed form of
`return foo, errors.New(a)` is the line itself. -/
theorem processLine_errorsNew (a : GoString) (hp : parenFree a) (hl : isLine a) :
    wrapLine "return foo, errors.New(\"bad\")".toList =
      some ("return foo, errors.Wrap(errors.New(\"bad\"))".toList, none) ∧
    collapse "return foo, errors.Wrap(errors.New(\"bad\"))".toList =
      "return foo, errors.New(\"bad\")".toList ∧
    processLine ("return foo, errors.New(".toList ++ a ++ ")".toList) =
      LineResult.written ("return foo, errors.New(".toList ++ a ++ ")".toList) :=
  ⟨by decide, by decide, errorsNew_line a hp hl⟩

/-- C4, amended, at `a` the text `"bad"`. -/
theorem processLine_errorsNew_witness :
    parenFree "\"bad\"".toList ∧ isLine "\"bad\"".toList ∧
    processLine ("return foo, errors.New(".toList ++ "\"bad\"".toList ++ ")".toList) =
      LineResult.written ("return foo, errors.New(".toList ++ "\"bad\"".toList ++ ")".toList) :=
  ⟨by unfold parenFree; decide, by decide,
    (processLine_errorsNew _ (by unfold parenFree; decide) (by decide)).2.2⟩

/-- C5: for every text `a` without parentheses (and, being part of a line,
without newline), the Collapse Pass maps `return errors.Wrap(errors.Wrap(a))`
to `return errors.Wrap(a)`. -/
theorem collapse_double_wrap (a : GoString) (hp : parenFree a) (hl : isLine a) :
    collapse ("return errors.Wrap(errors.Wrap(".toList ++ a ++ "))".toList) =
      "return errors.Wrap(".toList ++ a ++ ")".toList := by
  have hcap := lazyCapture_close ("Wrap(".toList ++ a) [] (by simp [hp.2]) (by
    have : '\n' ∉ a := hl
    simp [this])
  have hmatch : doubleWrap.matchAt ("errors.Wrap(errors.Wrap(".toList ++ a ++ "))".toList) =
      some ("Wrap(".toList ++ a, []) := by
    simp [LazyRegex.matchAt, doubleWrap] at hcap ⊢
    exact hcap
  have := collapse_of_some _ _ _ hmatch
  simp [collapse_skip] at this ⊢
  exact this

/-- C5, at `a` the text `err`. -/
theorem collapse_double_wrap_witness :
    parenFree "err".toList ∧ isLine "err".toList ∧
    collapse ("return errors.Wrap(errors.Wrap(".toList ++ "err".toList ++ "))".toList) =
      "return errors.Wrap(".toList ++ "err".toList ++ ")".toList :=
  ⟨by unfold parenFree; decide, by decide,
    collapse_double_wrap _ (by unfold parenFree; decide) (by decide)⟩

/-- C6, the code at a call with nested calls: the Collapse Pass applied to
`errors.Wrap(c)` with `c` the balanced call `errors.New(f(g(x)) + y)` does not
return `c`; it returns `errors.New(f(g(x) + y))`, a closing parenthesis of the
inner call moved. -/
theorem collapse_nested_call :
    collapse ("errors.Wrap(".toList ++ "errors.New(f(g(x)) + y)".toList ++ ")".toList) =
      "errors.New(f(g(x) + y))".toList ∧
    collapse ("errors.Wrap(".toList ++ "errors.New(f(g(x)) + y)".toList ++ ")".toList) ≠
      "errors.New(f(g(x)) + y)".toList ∧
    processLine "return errors.New(f(g(x)) + y)".toList =
      LineResult.written "return errors.New(f(g(x) + y))".toList := by
  decide

/-! ## Joining -/

@[simp] theorem stringsJoin_nil (sep : GoString) : stringsJoin [] sep = [] := by
  simp [stringsJoin, List.intercalate]

@[simp] theorem stringsJoin_singleton (x sep : GoString) : stringsJoin [x] sep = x := by
  simp [stringsJoin, List.intercalate]

theorem stringsJoin_cons_cons (x y : GoString) (l : List GoString) (sep : GoString) :
    stringsJoin (x :: y :: l) sep = x ++ sep ++ stringsJoin (y :: l) sep := by
  simp [stringsJoin, List.intercalate]

theorem stringsJoin_cons_head (c : Char) (t : GoString) (ts : List GoString) (sep : GoString) :
    stringsJoin ((c :: t) :: ts) sep = c :: stringsJoin (t :: ts) sep := by
  cases ts with
  | nil => simp
  | cons y l => simp [stringsJoin_cons_cons]

/-! ## The number of tokens -/

theorem parenDepth_cons (c : Char) (t : GoString) (d : Int) :
    d + parenDepth (c :: t) = nextDepth d c + parenDepth t := by
  unfold parenDepth nextDepth
  by_cases h1 : c = '(' <;> by_cases h2 : c = ')'
  · subst h1; exact absurd h2 (by decide)
  · subst h1; simp [List.count_cons]; try omega
  · subst h2; simp [List.count_cons]; try omega
  · simp [List.count_cons, h1, h2]; try omega

theorem restToks_length (s : GoString) : ∀ d : Int,
    (restToks d s).length = ((List.range s.length).filter
      (fun i => decide (s.get? i = some ',') && decide (d + parenDepth (s.take i) = 0))).length := by
  induction s with
  | nil => intro d; simp [restToks]
  | cons c cs ih =>
    intro d
    have hf : ((fun i => decide ((c :: cs).get? i = some ',') &&
        decide (d + parenDepth ((c :: cs).take i) = 0)) ∘ Nat.succ) =
        (fun i => decide (cs.get? i = some ',') &&
          decide (nextDepth d c + parenDepth (cs.take i) = 0)) := by
      funext i
      simp only [Function.comp, Nat.succ_eq_add_one, List.get?_cons_succ, List.take_succ_cons,
        parenDepth_cons]
    have h0 : (decide ((c :: cs).get? 0 = some ',') &&
        decide (d + parenDepth ((c :: cs).take 0) = 0)) = decide (c = ',' ∧ d = 0) := by
      simp [parenDepth]
    rw [List.length_cons, List.range_succ_eq_map, List.filter_cons, List.filter_map, hf, h0]
    by_cases h : c = ',' ∧ d = 0
    · obtain ⟨rfl, rfl⟩ := h
      have hn : nextDepth 0 ',' = 0 := by simp [nextDepth]
      simp only [restToks, and_self, if_true, decide_True, List.length_cons, List.length_map,
        hn, ih 0]
    · simp only [restToks, h, if_false, decide_False, List.length_map, ih (nextDepth d c)]
      simp

theorem rawTokens_length (s : GoString) : (rawTokens 0 s).length = topLevelCommas s + 1 := by
  have := restToks_length s 0
  simp only [zero_add] at this
  simp [rawTokens, topLevelCommas, this]

theorem restToks_of_no_comma (s : GoString) (h : ',' ∉ s) : ∀ d : Int, restToks d s = [] := by
  induction s with
  | nil => intro d; simp [restToks]
  | cons c cs ih =>
    intro d
    have hc : ¬ c = ',' := fun e => h (e ▸ List.mem_cons_self _ _)
    simp [restToks, hc, ih (fun hm => h (List.mem_cons_of_mem _ hm))]

/-! ## Joining the tokens again -/

theorem rawTokens_join (s : GoString) : ∀ d : Int, stringsJoin (rawTokens d s) [','] = s := by
  induction s with
  | nil => intro d; simp [rawTokens, firstTok, restToks]
  | cons c cs ih =>
    intro d
    by_cases h : c = ',' ∧ d = 0
    · obtain ⟨rfl, rfl⟩ := h
      have := ih 0
      simp only [rawTokens] at this
      simp [rawTokens, firstTok, restToks, stringsJoin_cons_cons, this]
    · have := ih (nextDepth d c)
      simp only [rawTokens] at this
      simp [rawTokens, firstTok, restToks, h, stringsJoin_cons_head, this]

theorem stripSpace_append (a b : GoString) :
    stripSpace (a ++ b) = stripSpace a ++ stripSpace b := by
  simp [stripSpace]

theorem stripSpace_dropWhile (s : GoString) : stripSpace (s.dropWhile isSpace) = stripSpace s := by
  induction s with
  | nil => rfl
  | cons c cs ih =>
    by_cases hc : isSpace c = true
    · rw [List.dropWhile_cons_of_pos hc, ih]; simp [stripSpace, hc]
    · rw [List.dropWhile_cons_of_neg hc]

theorem stripSpace_reverse (s : GoString) : stripSpace s.reverse = (stripSpace s).reverse := by
  simp [stripSpace, List.filter_reverse]

theorem stripSpace_trimSpace (s : GoString) : stripSpace (trimSpace s) = stripSpace s := by
  rw [trimSpace, List.rdropWhile, stripSpace_reverse, stripSpace_dropWhile, stripSpace_reverse,
    stripSpace_dropWhile, List.reverse_reverse]

theorem stripSpace_join (l : List GoString) :
    stripSpace (stringsJoin (l.map trimSpace) ", ".toList) = stripSpace (stringsJoin l [',']) := by
  induction l with
  | nil => simp
  | cons x l ih =>
    cases l with
    | nil => simp [stripSpace_trimSpace]
    | cons y l =>
      simp only [List.map_cons, stringsJoin_cons_cons, stripSpace_append, stripSpace_trimSpace]
        at ih ⊢
      rw [ih]
      simp [stripSpace, show isSpace ',' = false by decide, show isSpace ' ' = true by decide]

theorem dropWhile_head_not (p : Char → Bool) (l : GoString) (c : Char) (r : GoString)
    (h : l.dropWhile p = c :: r) : p c = false := by
  induction l with
  | nil => simp at h
  | cons x l ih =>
    by_cases hx : p x = true
    · rw [List.dropWhile_cons_of_pos hx] at h; exact ih h
    · rw [List.dropWhile_cons_of_neg hx] at h
      simp only [List.cons.injEq] at h
      rw [← h.1]; simpa using hx

theorem trimSpace_head (t : GoString) (c : Char) (u : GoString) (h : trimSpace t = c :: u) :
    isSpace c = false := by
  obtain ⟨w, hw⟩ : trimSpace t <+: t.dropWhile isSpace := List.rdropWhile_prefix _ _
  rw [h] at hw
  exact dropWhile_head_not _ _ _ _ hw.symm

theorem trimSpace_last (t : GoString) (c : Char) (u : GoString) (h : trimSpace t = u ++ [c]) :
    isSpace c = false := by
  have : (trimSpace t).reverse = c :: u.reverse := by rw [h]; simp
  rw [trimSpace, List.rdropWhile, List.reverse_reverse] at this
  exact dropWhile_head_not _ _ _ _ this

/-! ## The claims about `tokenizeArgs` -/

/-- C9: `tokenizeArgs` returns exactly (number of top-level commas + 1)
tokens, a top-level comma being a `,` before which the running count of `(`
minus `)` is 0; the result is never empty, and a text without comma gives
exactly one token.  This holds for every text, balanced or not. -/
theorem tokenizeArgs_length (s : GoString) :
    ∃ toks, tokenizeArgs s = some toks ∧
      toks.length = topLevelCommas s + 1 ∧ toks ≠ [] ∧ (',' ∉ s → toks.length = 1) := by
  refine ⟨(rawTokens 0 s).map trimSpace, tokenizeArgs_eq s, ?_, ?_, ?_⟩
  · rw [List.length_map, rawTokens_length]
  · simp [rawTokens]
  · intro h
    simp [rawTokens, restToks_of_no_comma s h 0]

/-- C10: joining the tokens of `tokenizeArgs` with `, ` gives the original
text up to white space: the two are equal once all white space is deleted,
and no token starts or ends with white space.  This holds for every text,
balanced or not. -/
theorem tokenizeArgs_join (s : GoString) :
    ∃ toks, tokenizeArgs s = some toks ∧
      stripSpace (stringsJoin toks ", ".toList) = stripSpace s ∧
      ∀ t ∈ toks, (∀ c u, t = c :: u → isSpace c = false) ∧
        (∀ c u, t = u ++ [c] → isSpace c = false) := by
  refine ⟨(rawTokens 0 s).map trimSpace, tokenizeArgs_eq s, ?_, ?_⟩
  · rw [stripSpace_join, rawTokens_join]
  · intro t ht
    obtain ⟨r, _, rfl⟩ := List.mem_map.1 ht
    exact ⟨fun c u h => trimSpace_head r c u h, fun c u h => trimSpace_last r c u h⟩


/-! ## Occurrences of a text -/

theorem startsWith_iff_isPrefix (s p : GoString) : startsWith s p = true ↔ p <+: s := by
  rw [startsWith_iff]
  constructor
  · rintro ⟨t, rfl⟩; exact ⟨t, rfl⟩
  · rintro ⟨t, rfl⟩; exact ⟨t, rfl⟩

/-- A text that starts `a ++ c :: b` and does not hold `c` lies within `a`. -/
theorem isPrefix_of_not_mem (q : GoString) (c : Char) (hc : c ∉ q) :
    ∀ (a b : GoString), q <+: a ++ c :: b → q <+: a := by
  induction q with
  | nil => intro a b _; exact List.nil_prefix
  | cons x q ih =>
    intro a b h
    cases a with
    | nil =>
      simp only [List.nil_append, List.cons_prefix_cons] at h
      exact absurd (h.1 ▸ List.mem_cons_self _ _) hc
    | cons y a =>
      simp only [List.cons_append, List.cons_prefix_cons] at h ⊢
      exact ⟨h.1, ih (fun hm => hc (List.mem_cons_of_mem _ hm)) a b h.2⟩

/-- A text that occurs in `a ++ c :: b` and does not hold `c` occurs in `a` or
in `b`. -/
theorem occurs_split (q : GoString) (c : Char) (hc : c ∉ q) (b : GoString) :
    ∀ a : GoString, q <:+: a ++ c :: b → q <:+: a ∨ q <:+: b := by
  intro a
  induction a with
  | nil =>
    intro h
    rcases List.infix_cons_iff.1 h with h | h
    · have := isPrefix_of_not_mem q c hc [] b h
      exact Or.inl this.isInfix
    · exact Or.inr h
  | cons x a ih =>
    intro h
    rcases List.infix_cons_iff.1 h with h | h
    · exact Or.inl (isPrefix_of_not_mem q c hc (x :: a) b h).isInfix
    · rcases ih h with h | h
      · exact Or.inl (List.infix_cons h)
      · exact Or.inr h

theorem occurs_of_occurs_join (q : GoString) (h1 : ',' ∉ q) (h2 : ' ' ∉ q) (hq : q ≠ []) :
    ∀ l : List GoString, q <:+: stringsJoin l ", ".toList → ∃ t ∈ l, q <:+: t := by
  intro l
  induction l with
  | nil => intro h; simp at h; exact absurd h hq
  | cons x l ih =>
    cases l with
    | nil => intro h; exact ⟨x, by simp, by simpa using h⟩
    | cons y l =>
      intro h
      rw [stringsJoin_cons_cons] at h
      have e : x ++ ", ".toList ++ stringsJoin (y :: l) ", ".toList =
          x ++ ',' :: ([] ++ ' ' :: stringsJoin (y :: l) ", ".toList) := by simp
      rw [e] at h
      rcases occurs_split q ',' h1 _ _ h with h | h
      · exact ⟨x, by simp, h⟩
      · rcases occurs_split q ' ' h2 _ _ h with h | h
        · exact absurd (List.infix_nil.1 h) hq
        · obtain ⟨t, ht, h⟩ := ih h
          exact ⟨t, List.mem_cons_of_mem _ ht, h⟩

theorem isInfix_join_of_mem (sep : GoString) :
    ∀ (l : List GoString) (t : GoString), t ∈ l → t <:+: stringsJoin l sep := by
  intro l
  induction l with
  | nil => intro t h; simp at h
  | cons x l ih =>
    intro t ht
    cases l with
    | nil =>
      simp only [List.mem_singleton] at ht
      subst ht; simp [List.infix_refl]
    | cons y l =>
      rw [stringsJoin_cons_cons]
      rcases List.mem_cons.1 ht with rfl | ht
      · exact ⟨[], sep ++ stringsJoin (y :: l) sep, by simp⟩
      · obtain ⟨a, b, e⟩ := ih t ht
        exact ⟨x ++ sep ++ a, b, by rw [← e]; simp⟩

theorem rawToken_isInfix (s r : GoString) (d : Int) (h : r ∈ rawTokens d s) : r <:+: s := by
  have := isInfix_join_of_mem [','] (rawTokens d s) r h
  rwa [rawTokens_join] at this

theorem trimSpace_isInfix (s : GoString) : trimSpace s <:+: s :=
  (List.rdropWhile_prefix _ _).isInfix.trans (List.dropWhile_suffix _).isInfix

/-! ## The Collapse Pass does not bring a wrap of a wrap -/

theorem wrapOfWrap_suffix_cases (q' : GoString) (hq : 'e' :: q' <:+ wrapOfWrap) :
    'e' :: q' = wrapOfWrap ∨ 'e' :: q' = "errors.Wrap(".toList := by
  have h := (List.mem_tails _ _).2 hq
  simp [wrapOfWrap, List.tails] at h ⊢
  rcases h with h | h
  · exact Or.inl h
  · exact Or.inr h

theorem collapse_isPrefix (s : GoString) : ∀ q : GoString, q <:+ wrapOfWrap →
    q <+: collapse s → q <+: s := by
  induction s with
  | nil => intro q _ h; simpa using h
  | cons c cs ih =>
    intro q hq h
    cases q with
    | nil => exact List.nil_prefix
    | cons x q =>
      cases hm : doubleWrap.matchAt (c :: cs) with
      | none =>
        rw [collapse_of_none c cs hm, List.cons_prefix_cons] at h
        rw [List.cons_prefix_cons]
        exact ⟨h.1, ih q ((List.suffix_cons x q).trans hq) h.2⟩
      | some r =>
        obtain ⟨cap, rest⟩ := r
        obtain ⟨e, _⟩ := matchAt_some _ _ _ _ hm
        rw [collapse_of_some _ _ _ hm] at h
        rw [e]
        have hx : x = 'e' := by
          simp only [String.toList, List.cons_append, List.cons_prefix_cons] at h
          exact h.1
        subst hx
        rcases wrapOfWrap_suffix_cases q hq with hq | hq
        · rw [hq] at h ⊢
          have h2 : "Wrap(errors.Wrap(".toList <+: cap ++ ')' :: collapse rest := by
            simpa [wrapOfWrap] using h
          obtain ⟨t, ht⟩ := isPrefix_of_not_mem _ ')' (by decide) _ _ h2
          rw [← ht]
          simp [wrapOfWrap, doubleWrap]
        · rw [hq]
          simp [doubleWrap]

theorem collapse_occurs (n : Nat) : ∀ s : GoString, s.length ≤ n →
    wrapOfWrap <:+: collapse s → wrapOfWrap <:+: s := by
  induction n with
  | zero =>
    intro s hs h
    have : s = [] := List.length_eq_zero.1 (Nat.le_zero.1 hs)
    subst this
    simpa using h
  | succ n ih =>
    intro s hs h
    cases s with
    | nil => simpa using h
    | cons c cs =>
      have hcs : cs.length ≤ n := by simpa using hs
      cases hm : doubleWrap.matchAt (c :: cs) with
      | none =>
        rw [collapse_of_none c cs hm] at h
        rcases List.infix_cons_iff.1 h with h | h
        · have := collapse_isPrefix (c :: cs) wrapOfWrap List.suffix_rfl
            (by rw [collapse_of_none c cs hm]; exact h)
          exact this.isInfix
        · exact List.infix_cons (ih cs hcs h)
      | some r =>
        obtain ⟨cap, rest⟩ := r
        obtain ⟨e, _⟩ := matchAt_some _ _ _ _ hm
        rw [collapse_of_some _ _ _ hm] at h
        have e2 : "errors.".toList ++ cap ++ ")".toList ++ collapse rest =
            ("errors.".toList ++ cap) ++ ')' :: collapse rest := by simp
        rw [e2] at h
        rw [e]
        rcases occurs_split _ ')' (by decide) _ _ h with h | h
        · refine h.trans ⟨"errors.Wrap(".toList, "))".toList ++ rest, ?_⟩
          simp [doubleWrap]
        · have hr : rest.length ≤ n := by
            have := congrArg List.length e
            simp [doubleWrap] at this
            omega
          exact (ih rest hr h).trans ⟨doubleWrap.lit ++ cap ++ doubleWrap.stop, [], by simp⟩

/-! ## `wrapLine` does not bring a wrap of a wrap -/

theorem wrappable_errorsWrap (u : GoString) : wrappable ("errors.Wrap(".toList ++ u) = false := by
  simp [wrappable]

theorem wrapArg_occurs (t : GoString) (h : wrapOfWrap <:+: wrapArg t) : wrapOfWrap <:+: t := by
  unfold wrapArg at h
  by_cases hw : wrappable t = true
  · rw [if_pos hw] at h
    have e : "errors.Wrap(".toList ++ t ++ ")".toList = ("errors.Wrap(".toList ++ t) ++ ')' :: [] := by
      simp
    rw [e] at h
    rcases occurs_split _ ')' (by decide) _ _ h with h | h
    · simp [wrapOfWrap, List.infix_cons_iff] at h
      rcases h with h | h
      · obtain ⟨u, rfl⟩ := h
        have := wrappable_errorsWrap u
        simp only [String.toList] at this
        rw [this] at hw
        exact absurd hw (by decide)
      · exact h
    · exact absurd (List.infix_nil.1 h) (by decide)
  · rw [if_neg hw] at h
    exact h

theorem wrapLine_cases (line : GoString) :
    wrapLine line = some (line, none) ∨
    ∃ rest, trimSpace line = "return ".toList ++ rest ∧
      noWrapMatcher.MatchString (trimSpace line) = false ∧
      wrapLine line = some (leadingSpace line ++ "return ".toList ++
        stringsJoin (((rawTokens 0 rest).map trimSpace).map wrapArg) ", ".toList, none) := by
  by_cases hp : startsWith (trimSpace line) "return ".toList = true
  · by_cases hm : noWrapMatcher.MatchString (trimSpace line) = true
    · exact Or.inl (wrapLine_of_match line hm)
    · obtain ⟨rest, hr⟩ := (startsWith_iff _ _).1 hp
      have hm2 := Bool.eq_false_iff.2 hm
      exact Or.inr ⟨rest, hr, hm2, wrapLine_eq line rest hr hm2⟩
  · exact Or.inl (wrapLine_of_not_return line (Bool.eq_false_iff.2 hp))

theorem wrapLine_occurs (line wl : GoString) (h : wrapLine line = some (wl, none))
    (ho : wrapOfWrap <:+: wl) : wrapOfWrap <:+: line := by
  rcases wrapLine_cases line with h1 | ⟨rest, hr, _, h1⟩
  · rw [h1] at h
    simp only [Option.some.injEq, Prod.mk.injEq, and_true] at h
    rwa [h]
  · rw [h1] at h
    simp only [Option.some.injEq, Prod.mk.injEq, and_true] at h
    subst h
    obtain ⟨w, hw⟩ := line_eq_of_trim line rest hr
    have hrest : rest <:+: line := by
      refine ⟨leadingSpace line ++ "return ".toList, w, ?_⟩
      conv_rhs => rw [hw]
      simp
    have e : leadingSpace line ++ "return ".toList ++
        stringsJoin (((rawTokens 0 rest).map trimSpace).map wrapArg) ", ".toList =
        (leadingSpace line ++ "return".toList) ++ ' ' ::
          stringsJoin (((rawTokens 0 rest).map trimSpace).map wrapArg) ", ".toList := by simp
    rw [e] at ho
    rcases occurs_split _ ' ' (by decide) _ _ ho with ho | ho
    · refine ho.trans ⟨[], " ".toList ++ (rest ++ w), ?_⟩
      conv_rhs => rw [hw]
      simp
    · obtain ⟨t, ht, ho⟩ := occurs_of_occurs_join _ (by decide) (by decide) (by decide) _ ho
      obtain ⟨t1, ht1, rfl⟩ := List.mem_map.1 ht
      obtain ⟨r, hr1, rfl⟩ := List.mem_map.1 ht1
      exact (((wrapArg_occurs _ ho).trans (trimSpace_isInfix r)).trans
        (rawToken_isInfix _ _ _ hr1)).trans hrest

theorem processLine_written (line : GoString) :
    ∃ wl, wrapLine line = some (wl, none) ∧ processLine line = LineResult.written (collapse wl) := by
  rcases wrapLine_cases line with h | ⟨_, _, _, h⟩
  · exact ⟨_, h, processLine_of_wrapLine _ _ h⟩
  · exact ⟨_, h, processLine_of_wrapLine _ _ h⟩

/-- C8: the per-line processing never introduces a wrap of a wrap: when the
line holds no occurrence of `errors.Wrap(errors.Wrap(`, the line is processed
without failure and the result of `wrapLine` followed by the Collapse Pass
holds no occurrence of it either. -/
theorem processLine_no_wrapOfWrap (line : GoString) (h : ¬ occursIn wrapOfWrap line) :
    ∃ out, processLine line = LineResult.written out ∧ ¬ occursIn wrapOfWrap out := by
  obtain ⟨wl, hw, hp⟩ := processLine_written line
  refine ⟨collapse wl, hp, fun ho => h ?_⟩
  exact wrapLine_occurs line wl hw (collapse_occurs wl.length wl (Nat.le_refl _) ho)

/-- C8, at the line `return nil, errors.New(a), err` after a tab. -/
theorem processLine_no_wrapOfWrap_witness :
    ¬ occursIn wrapOfWrap "\treturn nil, errors.New(a), err".toList ∧
    ∃ out, processLine "\treturn nil, errors.New(a), err".toList = LineResult.written out ∧
      ¬ occursIn wrapOfWrap out :=
  ⟨by decide, processLine_no_wrapOfWrap _ (by decide)⟩

/-! ## The Collapse Pass and texts that hold no `e` -/

theorem collapse_isPrefix_of_no_e (s : GoString) : ∀ q : GoString, 'e' ∉ q →
    q <+: collapse s → q <+: s := by
  induction s with
  | nil => intro q _ h; simpa using h
  | cons c cs ih =>
    intro q hq h
    cases q with
    | nil => exact List.nil_prefix
    | cons x q =>
      cases hm : doubleWrap.matchAt (c :: cs) with
      | none =>
        rw [collapse_of_none c cs hm, List.cons_prefix_cons] at h
        rw [List.cons_prefix_cons]
        exact ⟨h.1, ih q (fun hm => hq (List.mem_cons_of_mem _ hm)) h.2⟩
      | some r =>
        obtain ⟨cap, rest⟩ := r
        rw [collapse_of_some _ _ _ hm] at h
        have hx : x = 'e' := by
          simp only [String.toList, List.cons_append, List.cons_prefix_cons] at h
          exact h.1
        exact absurd (hx ▸ List.mem_cons_self _ _) hq

theorem collapse_occurs_of_no_e (p : GoString) (h1 : 'e' ∉ p) (h2 : ')' ∉ p) (n : Nat) :
    ∀ s : GoString, s.length ≤ n → p <:+: collapse s → p <:+: s := by
  induction n with
  | zero =>
    intro s hs h
    have : s = [] := List.length_eq_zero.1 (Nat.le_zero.1 hs)
    subst this
    simpa using h
  | succ n ih =>
    intro s hs h
    cases s with
    | nil => simpa using h
    | cons c cs =>
      have hcs : cs.length ≤ n := by simpa using hs
      cases hm : doubleWrap.matchAt (c :: cs) with
      | none =>
        rw [collapse_of_none c cs hm] at h
        rcases List.infix_cons_iff.1 h with h | h
        · have := collapse_isPrefix_of_no_e (c :: cs) p h1
            (by rw [collapse_of_none c cs hm]; exact h)
          exact this.isInfix
        · exact List.infix_cons (ih cs hcs h)
      | some r =>
        obtain ⟨cap, rest⟩ := r
        obtain ⟨e, _⟩ := matchAt_some _ _ _ _ hm
        rw [collapse_of_some _ _ _ hm] at h
        have e2 : "errors.".toList ++ cap ++ ")".toList ++ collapse rest =
            ("errors.".toList ++ cap) ++ ')' :: collapse rest := by simp
        rw [e2] at h
        rw [e]
        rcases occurs_split _ ')' h2 _ _ h with h | h
        · refine h.trans ⟨"errors.Wrap(".toList, "))".toList ++ rest, ?_⟩
          simp [doubleWrap]
        · have hr : rest.length ≤ n := by
            have := congrArg List.length e
            simp [doubleWrap] at this
            omega
          exact (ih rest hr h).trans ⟨doubleWrap.lit ++ cap ++ doubleWrap.stop, [], by simp⟩

/-! ## Suppression markers -/

theorem hasMarker_iff (s : GoString) :
    hasMarker s ↔ ∃ a r, s = a ++ "//".toList ++ r ∧ "nowrap".toList <:+: r := by
  constructor
  · rintro ⟨a, b, c, rfl⟩
    exact ⟨a, b ++ "nowrap".toList ++ c, by simp, ⟨b, c, rfl⟩⟩
  · rintro ⟨a, r, rfl, ⟨b, c, rfl⟩⟩
    exact ⟨a, b, c, by simp⟩

theorem not_hasMarker_nil : ¬ hasMarker [] := by
  rintro ⟨a, b, c, h⟩
  have := congrArg List.length h
  simp at this
  omega

theorem hasMarker_cons (x : Char) (s : GoString) :
    hasMarker (x :: s) ↔
      (x = '/' ∧ ∃ r, s = '/' :: r ∧ "nowrap".toList <:+: r) ∨ hasMarker s := by
  rw [hasMarker_iff, hasMarker_iff]
  constructor
  · rintro ⟨a, r, e, hr⟩
    cases a with
    | nil =>
      simp only [String.toList, List.nil_append, List.cons_append, List.cons.injEq] at e
      exact Or.inl ⟨e.1, r, e.2, hr⟩
    | cons y a =>
      simp only [List.cons_append, List.cons.injEq] at e
      exact Or.inr ⟨a, r, e.2, hr⟩
  · rintro (⟨rfl, r, rfl, hr⟩ | ⟨a, r, rfl, hr⟩)
    · exact ⟨[], r, by simp, hr⟩
    · exact ⟨x :: a, r, by simp, hr⟩

theorem hasMarker_of_isInfix (s t : GoString) (h : s <:+: t) (hs : hasMarker s) : hasMarker t := by
  obtain ⟨u, v, rfl⟩ := h
  obtain ⟨a, b, c, rfl⟩ := hs
  exact ⟨u ++ a, b, c ++ v, by simp⟩

theorem hasMarker_of_parts (A Z : GoString) (h1 : "//".toList <:+: A)
    (h2 : "nowrap".toList <:+: Z) : hasMarker (A ++ Z) := by
  obtain ⟨a1, a2, rfl⟩ := h1
  obtain ⟨z1, z2, rfl⟩ := h2
  exact ⟨a1, a2 ++ z1, z2, by simp⟩

theorem marker_split (c : Char) (h1 : c ≠ '/') (h2 : c ∉ "nowrap".toList) (Z : GoString) :
    ∀ A : GoString, hasMarker (A ++ c :: Z) →
      hasMarker A ∨ ("//".toList <:+: A ∧ "nowrap".toList <:+: Z) ∨ hasMarker Z := by
  intro A
  induction A with
  | nil =>
    intro h
    rcases (hasMarker_cons _ _).1 h with ⟨e, _⟩ | h
    · exact absurd e h1
    · exact Or.inr (Or.inr h)
  | cons x A ih =>
    intro h
    rcases (hasMarker_cons _ _).1 h with ⟨rfl, r, e, hr⟩ | h
    · cases A with
      | nil =>
        have e' : c :: Z = '/' :: r := e
        exact absurd (List.cons.inj e').1 h1
      | cons y A =>
        have e' : y :: (A ++ c :: Z) = '/' :: r := e
        obtain ⟨rfl, rfl⟩ := List.cons.inj e'
        rcases occurs_split _ c h2 _ _ hr with hr | hr
        · exact Or.inl ((hasMarker_cons _ _).2 (Or.inl ⟨rfl, A, rfl, hr⟩))
        · exact Or.inr (Or.inl ⟨⟨[], A, by simp⟩, hr⟩)
    · rcases ih h with h | ⟨h, h'⟩ | h
      · exact Or.inl ((hasMarker_cons _ _).2 (Or.inr h))
      · exact Or.inr (Or.inl ⟨List.infix_cons h, h'⟩)
      · exact Or.inr (Or.inr h)

theorem hasMarker_collapse (n : Nat) : ∀ s : GoString, s.length ≤ n →
    hasMarker (collapse s) → hasMarker s := by
  induction n with
  | zero =>
    intro s hs h
    have : s = [] := List.length_eq_zero.1 (Nat.le_zero.1 hs)
    subst this
    rw [collapse_nil] at h
    exact h
  | succ n ih =>
    intro s hs h
    cases s with
    | nil =>
      rw [collapse_nil] at h
      exact h
    | cons c cs =>
      have hcs : cs.length ≤ n := by simpa using hs
      cases hm : doubleWrap.matchAt (c :: cs) with
      | none =>
        rw [collapse_of_none c cs hm] at h
        rcases (hasMarker_cons _ _).1 h with ⟨rfl, r, e, hr⟩ | h
        · have hp : ['/'] <+: collapse cs := ⟨r, by rw [e]; rfl⟩
          obtain ⟨cs', rfl⟩ := collapse_isPrefix_of_no_e cs ['/'] (by decide) hp
          have hk : collapse (['/'] ++ cs') = '/' :: collapse cs' :=
            collapse_skip '/' cs' (by simp)
          rw [hk] at e
          simp only [List.cons.injEq, true_and] at e
          rw [← e] at hr
          have := collapse_occurs_of_no_e _ (by decide) (by decide) cs'.length cs'
            (Nat.le_refl _) hr
          exact (hasMarker_cons _ _).2 (Or.inl ⟨rfl, cs', rfl, this⟩)
        · exact (hasMarker_cons _ _).2 (Or.inr (ih cs hcs h))
      | some r =>
        obtain ⟨cap, rest⟩ := r
        obtain ⟨e, _⟩ := matchAt_some _ _ _ _ hm
        rw [collapse_of_some _ _ _ hm] at h
        have e2 : "errors.".toList ++ cap ++ ")".toList ++ collapse rest =
            ("errors.".toList ++ cap) ++ ')' :: collapse rest := by simp
        rw [e2] at h
        have hr : rest.length ≤ n := by
          have := congrArg List.length e
          simp [doubleWrap] at this
          omega
        have e3 : c :: cs = ("errors.Wrap(".toList ++ ("errors.".toList ++ cap) ++ "))".toList)
            ++ rest := by rw [e]; simp [doubleWrap]
        rw [e3]
        rcases marker_split ')' (by decide) (by decide) _ _ h with h | ⟨h, h'⟩ | h
        · exact hasMarker_of_isInfix _ _
            ⟨"errors.Wrap(".toList, "))".toList ++ rest, by simp⟩ h
        · have := collapse_occurs_of_no_e _ (by decide) (by decide) rest.length rest
            (Nat.le_refl _) h'
          exact hasMarker_of_parts _ _
            (h.trans ⟨"errors.Wrap(".toList, "))".toList, by simp⟩) this
        · exact hasMarker_of_isInfix _ _ (List.suffix_append _ _).isInfix (ih rest hr h)

/-! ## `wrapLine` brings no suppression marker -/

theorem occurs_drop_head (h : Char) (p' : GoString) (t : GoString) :
    ∀ a : GoString, h ∉ a → (h :: p') <:+: a ++ t → (h :: p') <:+: t := by
  intro a
  induction a with
  | nil => intro _ hp; simpa using hp
  | cons x a ih =>
    intro ha hp
    rcases List.infix_cons_iff.1 hp with hp | hp
    · have e : (h :: p') <+: x :: (a ++ t) := hp
      rw [List.cons_prefix_cons] at e
      exact absurd (e.1 ▸ List.mem_cons_self _ _) ha
    · exact ih (fun hm => ha (List.mem_cons_of_mem _ hm)) hp

theorem hasMarker_drop_head (t : GoString) :
    ∀ a : GoString, '/' ∉ a → hasMarker (a ++ t) → hasMarker t := by
  intro a
  induction a with
  | nil => intro _ h; simpa using h
  | cons x a ih =>
    intro ha h
    have h' : hasMarker (x :: (a ++ t)) := h
    rcases (hasMarker_cons _ _).1 h' with ⟨e, _⟩ | h'
    · exact absurd (e ▸ List.mem_cons_self _ _) ha
    · exact ih (fun hm => ha (List.mem_cons_of_mem _ hm)) h'

theorem wrapArg_occurs_of_head (h : Char) (p' : GoString) (hh : h ∉ "errors.Wrap(".toList)
    (hp : ')' ∉ h :: p') (t : GoString) (ho : (h :: p') <:+: wrapArg t) : (h :: p') <:+: t := by
  unfold wrapArg at ho
  by_cases hw : wrappable t = true
  · rw [if_pos hw] at ho
    have e : "errors.Wrap(".toList ++ t ++ ")".toList = ("errors.Wrap(".toList ++ t) ++ ')' :: [] := by
      simp
    rw [e] at ho
    rcases occurs_split _ ')' hp _ _ ho with ho | ho
    · exact occurs_drop_head h p' t _ hh ho
    · exact absurd (List.infix_nil.1 ho) (by simp)
  · rw [if_neg hw] at ho
    exact ho

theorem wrapArg_hasMarker (t : GoString) (h : hasMarker (wrapArg t)) : hasMarker t := by
  unfold wrapArg at h
  by_cases hw : wrappable t = true
  · rw [if_pos hw] at h
    have e : "errors.Wrap(".toList ++ t ++ ")".toList = ("errors.Wrap(".toList ++ t) ++ ')' :: [] := by
      simp
    rw [e] at h
    rcases marker_split ')' (by decide) (by decide) _ _ h with h | ⟨_, h⟩ | h
    · exact hasMarker_drop_head t _ (by decide) h
    · exact absurd (List.infix_nil.1 h) (by decide)
    · exact absurd h not_hasMarker_nil
  · rw [if_neg hw] at h
    exact h

theorem occurs_join_wrapped (h : Char) (p' : GoString) (hh : h ∉ "errors.Wrap(".toList)
    (hp : ')' ∉ h :: p') (h1 : ',' ∉ h :: p') (h2 : ' ' ∉ h :: p') (l : List GoString)
    (ho : (h :: p') <:+: stringsJoin ((l.map trimSpace).map wrapArg) ", ".toList) :
    (h :: p') <:+: stringsJoin l [','] := by
  obtain ⟨t, ht, ho⟩ := occurs_of_occurs_join _ h1 h2 (by simp) _ ho
  obtain ⟨t1, ht1, rfl⟩ := List.mem_map.1 ht
  obtain ⟨r, hr, rfl⟩ := List.mem_map.1 ht1
  exact ((wrapArg_occurs_of_head h p' hh hp _ ho).trans (trimSpace_isInfix r)).trans
    (isInfix_join_of_mem _ _ _ hr)

theorem hasMarker_join_wrapped : ∀ l : List GoString,
    hasMarker (stringsJoin ((l.map trimSpace).map wrapArg) ", ".toList) →
      hasMarker (stringsJoin l [',']) := by
  intro l
  induction l with
  | nil => intro h; simpa using h
  | cons x l ih =>
    cases l with
    | nil =>
      intro h
      simp only [List.map_cons, List.map_nil, stringsJoin_singleton] at h ⊢
      exact hasMarker_of_isInfix _ _ (trimSpace_isInfix x) (wrapArg_hasMarker _ h)
    | cons y l =>
      intro h
      simp only [List.map_cons, stringsJoin_cons_cons] at h ih ⊢
      have e : wrapArg (trimSpace x) ++ ", ".toList ++
          stringsJoin (wrapArg (trimSpace y) :: List.map wrapArg (List.map trimSpace l)) ", ".toList
          = wrapArg (trimSpace x) ++ ',' :: (' ' ::
          stringsJoin (wrapArg (trimSpace y) :: List.map wrapArg (List.map trimSpace l)) ", ".toList)
          := by simp
      rw [e] at h
      have hx : ∀ p : GoString, p <:+: x → p <:+: x ++ [','] ++ stringsJoin (y :: l) [','] :=
        fun p hp => hp.trans ⟨[], [','] ++ stringsJoin (y :: l) [','], by simp⟩
      rcases marker_split ',' (by decide) (by decide) _ _ h with h | ⟨h, h'⟩ | h
      · exact hasMarker_of_isInfix _ _ (hx _ (trimSpace_isInfix x)) (wrapArg_hasMarker _ h)
      · have h1 : "//".toList <:+: x :=
          (wrapArg_occurs_of_head '/' ['/'] (by decide) (by decide) _ h).trans
            (trimSpace_isInfix x)
        have h2 : "nowrap".toList <:+: stringsJoin (y :: l) [','] := by
          have := occurs_drop_head 'n' "owrap".toList _ [' '] (by decide) h'
          exact occurs_join_wrapped 'n' "owrap".toList (by decide) (by decide) (by decide)
            (by decide) (y :: l) (by simpa using this)
        have := hasMarker_of_parts (x ++ [',']) _ (h1.trans ⟨[], [','], by simp⟩) h2
        exact this
      · have := hasMarker_drop_head _ [' '] (by decide) h
        exact hasMarker_of_isInfix _ _ (List.suffix_append _ _).isInfix (ih this)

theorem hasMarker_wrapLine (line wl : GoString) (h : wrapLine line = some (wl, none))
    (hm : hasMarker wl) : hasMarker line := by
  rcases wrapLine_cases line with h1 | ⟨rest, hr, _, h1⟩
  · rw [h1] at h
    simp only [Option.some.injEq, Prod.mk.injEq, and_true] at h
    rwa [h]
  · rw [h1] at h
    simp only [Option.some.injEq, Prod.mk.injEq, and_true] at h
    subst h
    obtain ⟨w, hw⟩ := line_eq_of_trim line rest hr
    have e : leadingSpace line ++ "return ".toList ++
        stringsJoin (((rawTokens 0 rest).map trimSpace).map wrapArg) ", ".toList =
        (leadingSpace line ++ "return".toList) ++ ' ' ::
          stringsJoin (((rawTokens 0 rest).map trimSpace).map wrapArg) ", ".toList := by simp
    have e2 : line = (leadingSpace line ++ "return".toList ++ " ".toList) ++ (rest ++ w) := by
      conv_lhs => rw [hw]
      simp
    rw [e] at hm
    rw [e2]
    rcases marker_split ' ' (by decide) (by decide) _ _ hm with hm | ⟨hm, hm'⟩ | hm
    · exact hasMarker_of_isInfix _ _ ⟨[], " ".toList ++ (rest ++ w), by simp⟩ hm
    · have := occurs_join_wrapped 'n' "owrap".toList (by decide) (by decide) (by decide)
        (by decide) _ hm'
      rw [rawTokens_join] at this
      exact hasMarker_of_parts _ _ (hm.trans ⟨[], " ".toList, by simp⟩)
        (this.trans ⟨[], w, by simp⟩)
    · have := hasMarker_join_wrapped _ hm
      rw [rawTokens_join] at this
      exact hasMarker_of_isInfix _ _
        ⟨leadingSpace line ++ "return".toList ++ " ".toList, w, by simp⟩ this

/-! ## Tokens of a text put together from pieces -/

theorem endDepth_append (d : Int) (a b : GoString) :
    endDepth d (a ++ b) = endDepth (endDepth d a) b := by
  simp [endDepth, List.foldl_append]

theorem endDepth_of_parenFree (a : GoString) (hp : parenFree a) : ∀ d : Int, endDepth d a = d := by
  induction a with
  | nil => intro d; rfl
  | cons c a ih =>
    intro d
    have h1 : c ≠ '(' := fun e => hp.1 (e ▸ List.mem_cons_self _ _)
    have h2 : c ≠ ')' := fun e => hp.2 (e ▸ List.mem_cons_self _ _)
    have hp2 : parenFree a :=
      ⟨fun h => hp.1 (List.mem_cons_of_mem _ h), fun h => hp.2 (List.mem_cons_of_mem _ h)⟩
    have := ih hp2 d
    simp only [endDepth, List.foldl_cons, nextDepth_of_parenFree d c h1 h2] at this ⊢
    exact this

theorem firstTok_append (a s : GoString) : ∀ d : Int, restToks d a = [] →
    firstTok d (a ++ s) = a ++ firstTok (endDepth d a) s := by
  induction a with
  | nil => intro d _; rfl
  | cons c a ih =>
    intro d h
    by_cases hc : c = ',' ∧ d = 0
    · simp [restToks, hc] at h
    · simp only [restToks, hc, if_false] at h
      have e : endDepth d (c :: a) = endDepth (nextDepth d c) a := rfl
      rw [List.cons_append, e]
      simp only [firstTok, hc, if_false]
      rw [ih _ h, List.cons_append]

theorem restToks_append (a s : GoString) : ∀ d : Int, restToks d a = [] →
    restToks d (a ++ s) = restToks (endDepth d a) s := by
  induction a with
  | nil => intro d _; rfl
  | cons c a ih =>
    intro d h
    by_cases hc : c = ',' ∧ d = 0
    · simp [restToks, hc] at h
    · simp only [restToks, hc, if_false] at h
      have e : endDepth d (c :: a) = endDepth (nextDepth d c) a := rfl
      rw [List.cons_append, e]
      simp only [restToks, hc, if_false]
      rw [ih _ h]

theorem restToks_append_nil (a b : GoString) (d : Int) (h1 : restToks d a = [])
    (h2 : restToks (endDepth d a) b = []) : restToks d (a ++ b) = [] := by
  rw [restToks_append a b d h1, h2]

theorem firstTok_self (a : GoString) (d : Int) (h : restToks d a = []) : firstTok d a = a := by
  have := firstTok_append a [] d h
  simpa [firstTok] using this

/-- A piece that the scan goes through without splitting and leaves at depth
0, followed by a comma: it is the first token. -/
theorem rawTokens_piece (cb Z : GoString) (h1 : restToks 0 cb = []) (h2 : endDepth 0 cb = 0) :
    rawTokens 0 (cb ++ ',' :: Z) = cb :: rawTokens 0 Z := by
  simp [rawTokens, firstTok_append cb _ 0 h1, restToks_append cb _ 0 h1, h2, firstTok, restToks]

theorem rawTokens_piece_last (cb : GoString) (h1 : restToks 0 cb = []) :
    rawTokens 0 cb = [cb] := by
  simp [rawTokens, firstTok_self cb 0 h1, h1]

theorem rawTokens_space_cons (Z : GoString) :
    (rawTokens 0 (' ' :: Z)).map trimSpace = (rawTokens 0 Z).map trimSpace := by
  have h1 : firstTok 0 (' ' :: Z) = ' ' :: firstTok 0 Z := by
    simp [firstTok, nextDepth]
  have h2 : restToks 0 (' ' :: Z) = restToks 0 Z := by
    simp [restToks, nextDepth]
  simp only [rawTokens, h1, h2, List.map_cons]
  rw [trimSpace_space_cons _ _ (by decide)]

/-! ## White space at the end of the argument text -/

theorem rdropWhile_append_space (l w : GoString) (hw : ∀ c ∈ w, isSpace c = true) :
    (l ++ w).rdropWhile isSpace = l.rdropWhile isSpace := by
  induction w using List.reverseRecOn with
  | nil => simp
  | append_singleton w c ih =>
    rw [← List.append_assoc, List.rdropWhile_concat_pos _ _ _ (hw c (by simp))]
    exact ih (fun x hx => hw x (by simp [hx]))

theorem trimSpace_append_space (s w : GoString) (hw : ∀ c ∈ w, isSpace c = true) :
    trimSpace (s ++ w) = trimSpace s := by
  induction s with
  | nil =>
    have : w.dropWhile isSpace = [] := List.dropWhile_eq_nil_iff.2 hw
    simp [trimSpace, this]
  | cons c s ih =>
    by_cases hc : isSpace c = true
    · rw [List.cons_append, trimSpace_space_cons _ _ hc, trimSpace_space_cons _ _ hc, ih]
    · rw [List.cons_append, trimSpace, trimSpace, List.dropWhile_cons_of_neg hc,
        List.dropWhile_cons_of_neg hc, ← List.cons_append, rdropWhile_append_space _ _ hw]

theorem space_not_special (c : Char) (h : isSpace c = true) : c ≠ ',' ∧ c ≠ '(' ∧ c ≠ ')' := by
  refine ⟨?_, ?_, ?_⟩ <;> rintro rfl <;> exact absurd h (by decide)

theorem tokens_append_space (w : GoString) (hw : ∀ c ∈ w, isSpace c = true) (a : GoString) :
    ∀ (d : Int) (pre : GoString),
      trimSpace (pre ++ firstTok d (a ++ w)) = trimSpace (pre ++ firstTok d a) ∧
      (restToks d (a ++ w)).map trimSpace = (restToks d a).map trimSpace := by
  induction a with
  | nil =>
    intro d pre
    have hc : ',' ∉ w := fun h => (space_not_special _ (hw _ h)).1 rfl
    have h1 := restToks_of_no_comma w hc d
    simp [firstTok_self w d h1, h1, firstTok, restToks, trimSpace_append_space pre w hw]
  | cons c a ih =>
    intro d pre
    by_cases h : c = ',' ∧ d = 0
    · obtain ⟨rfl, rfl⟩ := h
      have := ih 0 []
      simp only [List.nil_append] at this
      simp [firstTok, restToks, this.1, this.2]
    · have := ih (nextDepth d c) (pre ++ [c])
      simp only [List.append_assoc, List.singleton_append] at this
      simp [firstTok, restToks, h, this.1, this.2]

theorem rdropWhile_split (l : GoString) :
    ∃ w, (∀ c ∈ w, isSpace c = true) ∧ l = l.rdropWhile isSpace ++ w := by
  induction l using List.reverseRecOn with
  | nil => exact ⟨[], by simp, by simp⟩
  | append_singleton l c ih =>
    by_cases hc : isSpace c = true
    · obtain ⟨w, hw, e⟩ := ih
      refine ⟨w ++ [c], ?_, ?_⟩
      · intro x hx
        rcases List.mem_append.1 hx with hx | hx
        · exact hw x hx
        · simp at hx; rw [hx]; exact hc
      · rw [List.rdropWhile_concat_pos _ _ _ hc, ← List.append_assoc, ← e]
    · exact ⟨[], by simp, by rw [List.rdropWhile_concat_neg _ _ _ hc]; simp⟩

theorem rewriteArgs_rdropWhile (Y : GoString) :
    rewriteArgs (Y.rdropWhile isSpace) = rewriteArgs Y := by
  obtain ⟨w, hw, e⟩ := rdropWhile_split Y
  have := tokens_append_space w hw (Y.rdropWhile isSpace) 0 []
  simp only [List.nil_append, ← e] at this
  simp only [rewriteArgs, rawTokens, List.map_cons]
  rw [this.1, this.2]

/-! ## Lines of the form indentation, `return `, argument text -/

theorem leadingSpace_form (X : GoString) : ∀ ind : GoString, (∀ c ∈ ind, isSpace c = true) →
    leadingSpace (ind ++ 'r' :: X) = ind := by
  intro ind
  induction ind with
  | nil => intro _; simp [leadingSpace, List.takeWhile, show isSpace 'r' = false by decide]
  | cons c ind ih =>
    intro h
    have hc := h c (List.mem_cons_self _ _)
    have := ih (fun x hx => h x (List.mem_cons_of_mem _ hx))
    simp only [leadingSpace] at this
    simp [leadingSpace, List.takeWhile, hc, this]

theorem trimSpace_form (X : GoString) : ∀ ind : GoString, (∀ c ∈ ind, isSpace c = true) →
    trimSpace (ind ++ X) = trimSpace X := by
  intro ind
  induction ind with
  | nil => intro _; rfl
  | cons c ind ih =>
    intro h
    rw [List.cons_append, trimSpace_space_cons _ _ (h c (List.mem_cons_self _ _))]
    exact ih (fun x hx => h x (List.mem_cons_of_mem _ hx))

theorem trimSpace_return_args (Y : GoString) (hY : ∃ x ∈ Y, isSpace x = false) :
    trimSpace ("return ".toList ++ Y) = "return ".toList ++ Y.rdropWhile isSpace := by
  obtain ⟨x, hx, hs⟩ := hY
  obtain ⟨y1, y2, rfl⟩ := List.append_of_mem hx
  have h1 : ∀ X : GoString, trimSpace ("return ".toList ++ X) =
      ("return ".toList ++ X).rdropWhile isSpace := by
    intro X
    show (List.dropWhile isSpace ('r' :: ("eturn ".toList ++ X))).rdropWhile isSpace = _
    rw [List.dropWhile_cons_of_neg (by decide)]
    rfl
  have e : "return ".toList ++ (y1 ++ x :: y2) = ("return ".toList ++ y1) ++ x :: y2 := by simp
  rw [h1, e, rdropWhile_append_of_not _ x y2 hs, rdropWhile_append_of_not y1 x y2 hs]
  simp

theorem trimSpace_return_blank (Y : GoString) (hY : ∀ c ∈ Y, isSpace c = true) :
    trimSpace ("return ".toList ++ Y) = "return".toList := by
  have e : "return ".toList ++ Y = "return".toList ++ (' ' :: Y) := by simp
  have hw : ∀ c ∈ ' ' :: Y, isSpace c = true := by
    intro c hc
    rcases List.mem_cons.1 hc with rfl | hc
    · decide
    · exact hY c hc
  rw [e, trimSpace_append_space _ _ hw]
  decide

theorem wrapLine_form_blank (ind Y : GoString) (hind : ∀ c ∈ ind, isSpace c = true)
    (hY : ∀ c ∈ Y, isSpace c = true) :
    wrapLine (ind ++ "return ".toList ++ Y) = some (ind ++ "return ".toList ++ Y, none) := by
  apply wrapLine_of_not_return
  rw [List.append_assoc, trimSpace_form _ ind hind, trimSpace_return_blank Y hY]
  decide

theorem wrapLine_form_rewrite (ind Y : GoString) (hind : ∀ c ∈ ind, isSpace c = true)
    (hY : ∃ x ∈ Y, isSpace x = false)
    (hm : noWrapMatcher.MatchString (trimSpace (ind ++ "return ".toList ++ Y)) = false) :
    wrapLine (ind ++ "return ".toList ++ Y) =
      some (ind ++ "return ".toList ++ rewriteArgs Y, none) := by
  have ht : trimSpace (ind ++ "return ".toList ++ Y) =
      "return ".toList ++ Y.rdropWhile isSpace := by
    rw [List.append_assoc, trimSpace_form _ ind hind, trimSpace_return_args Y hY]
  have hl : leadingSpace (ind ++ "return ".toList ++ Y) = ind := by
    have := leadingSpace_form ("eturn ".toList ++ Y) ind hind
    simpa using this
  rw [wrapLine_eq _ _ ht hm, hl]
  have := rewriteArgs_rdropWhile Y
  simp only [rewriteArgs] at this
  rw [this, rewriteArgs]

theorem collapse_form (Z : GoString) : ∀ ind : GoString, (∀ c ∈ ind, isSpace c = true) →
    collapse (ind ++ "return ".toList ++ Z) = ind ++ "return ".toList ++ collapse Z := by
  intro ind
  induction ind with
  | nil => intro _; simp [collapse_skip]
  | cons c ind ih =>
    intro h
    have hc : c ≠ 'e' := by
      rintro rfl
      exact absurd (h _ (List.mem_cons_self _ _)) (by decide)
    have hs : startsWith (c :: (ind ++ "return ".toList ++ Z)) "errors.Wrap(errors.".toList
        = false := by
      have hne : ¬ 'e' = c := fun e => hc e.symm
      simp [hne]
    have := ih (fun x hx => h x (List.mem_cons_of_mem _ hx))
    simp only [List.cons_append, List.append_assoc] at this hs ⊢
    rw [collapse_skip _ _ hs, this]

/-! ## One block of the argument text after the other -/

theorem rewriteArgs_piece (cb Z : GoString) (h1 : restToks 0 cb = []) (h2 : endDepth 0 cb = 0)
    (h3 : trimSpace cb = cb) :
    rewriteArgs (cb ++ ", ".toList ++ Z) = wrapArg cb ++ ", ".toList ++ rewriteArgs Z := by
  have e : cb ++ ", ".toList ++ Z = cb ++ ',' :: ' ' :: Z := by simp
  rw [e, rewriteArgs, rawTokens_piece cb _ h1 h2, List.map_cons, rawTokens_space_cons, h3,
    List.map_cons]
  simp only [rawTokens, List.map_cons, stringsJoin_cons_cons, rewriteArgs]

theorem rewriteArgs_piece_last (cb : GoString) (h1 : restToks 0 cb = [])
    (h3 : trimSpace cb = cb) : rewriteArgs cb = wrapArg cb := by
  rw [rewriteArgs, rawTokens_piece_last cb h1]
  simp [h3]

theorem collapse_comma_space (Y : GoString) :
    collapse (", ".toList ++ Y) = ", ".toList ++ collapse Y := by
  simp [collapse_skip]

/-! ## The Collapse Pass inside and around one token -/

theorem wrapOpen_suffix_single (y : Char) (h : [y] <:+ "errors.Wrap(".toList) : y = '(' := by
  have h' := (List.mem_tails _ _).2 h
  simpa [List.tails] using h'

theorem no_wrapOpen_inner (X : GoString) (hX : ∀ c X', X = c :: X' → c ∉ "errors.Wrap(".toList)
    (u : GoString) : ∀ q : GoString, q ≠ [] → q <:+ "errors.Wrap(".toList → '(' ∉ u →
      ¬ q <+: u ++ X := by
  induction u with
  | nil =>
    intro q hq hs _ hp
    cases q with
    | nil => exact hq rfl
    | cons y q =>
      cases X with
      | nil => simp at hp
      | cons c X' =>
        simp only [List.nil_append, List.cons_prefix_cons] at hp
        exact hX c X' rfl (hp.1 ▸ hs.subset (List.mem_cons_self _ _))
  | cons x u ih =>
    intro q hq hs hu hp
    cases q with
    | nil => exact hq rfl
    | cons y q =>
      simp only [List.cons_append, List.cons_prefix_cons] at hp
      cases q with
      | nil =>
        have := wrapOpen_suffix_single y hs
        exact hu (by rw [← hp.1, this]; exact List.mem_cons_self _ _)
      | cons z q =>
        exact ih (z :: q) (by simp) ((List.suffix_cons y _).trans hs)
          (fun h => hu (List.mem_cons_of_mem _ h)) hp.2

theorem collapse_inner (X : GoString) (hX : ∀ c X', X = c :: X' → c ∉ "errors.Wrap(".toList)
    (u : GoString) (hu : '(' ∉ u) : collapse (u ++ X) = u ++ collapse X := by
  induction u with
  | nil => rfl
  | cons x u ih =>
    have hn : startsWith (x :: (u ++ X)) "errors.Wrap(errors.".toList = false := by
      cases hs : startsWith (x :: (u ++ X)) "errors.Wrap(errors.".toList with
      | false => rfl
      | true =>
        have h1 : "errors.Wrap(errors.".toList <+: x :: (u ++ X) :=
          (startsWith_iff_isPrefix _ _).1 hs
        have h2 : "errors.Wrap(".toList <+: "errors.Wrap(errors.".toList :=
          ⟨"errors.".toList, by decide⟩
        exact absurd (h2.trans h1)
          (no_wrapOpen_inner X hX (x :: u) _ (by decide) List.suffix_rfl hu)
    rw [List.cons_append, collapse_skip _ _ hn, ih (fun h => hu (List.mem_cons_of_mem _ h)),
      List.cons_append]

theorem close_single (m : GoString) (h : ')' ∉ m) : ¬ "))".toList <:+: m ++ [')'] := by
  induction m with
  | nil =>
    intro hi
    have := hi.length_le
    simp at this
  | cons x m ih =>
    intro hi
    rcases List.infix_cons_iff.1 hi with hi | hi
    · have e : "))".toList <+: x :: (m ++ [')']) := hi
      simp only [String.toList, List.cons_prefix_cons] at e
      exact h (e.1 ▸ List.mem_cons_self _ _)
    · exact ih (fun hm => h (List.mem_cons_of_mem _ hm)) hi

theorem lazyCapture_none_of_no_close (s : GoString) (h : ¬ "))".toList <:+: s) :
    lazyCapture "))".toList s = none := by
  cases hc : lazyCapture "))".toList s with
  | none => rfl
  | some r =>
    obtain ⟨e, _⟩ := lazyCapture_some _ _ r.1 r.2 hc
    exact absurd ⟨r.1, r.2, e.symm⟩ h

theorem lazyCapture_exact (rest : GoString) (cap : GoString)
    (h1 : ¬ "))".toList <:+: cap ++ [')']) (h2 : '\n' ∉ cap) :
    lazyCapture "))".toList (cap ++ "))".toList ++ rest) = some (cap, rest) := by
  induction cap with
  | nil => simp [lazyCapture_cons]
  | cons x cap ih =>
    have hx2 : ¬ x = '\n' := fun e => h2 (e ▸ List.mem_cons_self _ _)
    have := ih (fun h => h1 (List.infix_cons h)) (fun h => h2 (List.mem_cons_of_mem _ h))
    have hs : startsWith (x :: (cap ++ "))".toList ++ rest)) "))".toList = false := by
      cases hs : startsWith (x :: (cap ++ "))".toList ++ rest)) "))".toList with
      | false => rfl
      | true =>
        exfalso
        apply h1
        cases cap with
        | nil =>
          simp at hs
          rw [← hs]
          exact ⟨[], [], by decide⟩
        | cons y cap =>
          simp at hs
          rw [← hs.1, ← hs.2]
          exact ⟨[], cap ++ [')'], by simp⟩
    rw [List.cons_append, List.cons_append, lazyCapture_cons, hs, this]
    simp [hx2]

theorem collapse_wrapped (cap X : GoString) (h1 : ¬ "))".toList <:+: cap ++ [')'])
    (h2 : '\n' ∉ cap) :
    collapse ("errors.Wrap(".toList ++ ("errors.".toList ++ cap ++ ")".toList) ++ ")".toList ++ X)
      = "errors.".toList ++ cap ++ ")".toList ++ collapse X := by
  have hcap := lazyCapture_exact X cap h1 h2
  have hmatch : doubleWrap.matchAt
      ("errors.Wrap(".toList ++ ("errors.".toList ++ cap ++ ")".toList) ++ ")".toList ++ X) =
      some (cap, X) := by
    simp [LazyRegex.matchAt, doubleWrap] at hcap ⊢
    exact hcap
  exact collapse_of_some _ _ _ hmatch

theorem collapse_wrapTok (u X : GoString) (hu : parenFree u)
    (hno : ¬ "errors.".toList <+: u ∨ ¬ "))".toList <:+: u ++ ')' :: X) :
    collapse ("errors.Wrap(".toList ++ u ++ ")".toList ++ X) =
      "errors.Wrap(".toList ++ u ++ ")".toList ++ collapse X := by
  have h0 : doubleWrap.matchAt ("errors.Wrap(".toList ++ u ++ ")".toList ++ X) = none := by
    by_cases hp : "errors.".toList <+: u
    · obtain ⟨u', rfl⟩ := hp
      rcases hno with hno | hno
      · exact absurd ⟨u', rfl⟩ hno
      · have hc : ¬ "))".toList <:+: u' ++ ')' :: X := fun h =>
          hno (h.trans ⟨"errors.".toList, [], by simp⟩)
        have := lazyCapture_none_of_no_close _ hc
        simp [LazyRegex.matchAt, doubleWrap] at this ⊢
        exact this
    · apply matchAt_none_of_not_startsWith
      cases hs : startsWith ("errors.Wrap(".toList ++ u ++ ")".toList ++ X)
          "errors.Wrap(errors.".toList with
      | false => rfl
      | true =>
        have h1 := (startsWith_iff_isPrefix _ _).1 hs
        have h2 : "errors.".toList <+: u ++ ')' :: X := by
          have e1 : "errors.Wrap(errors.".toList = "errors.Wrap(".toList ++ "errors.".toList := by
            decide
          have e2 : "errors.Wrap(".toList ++ u ++ ")".toList ++ X =
              "errors.Wrap(".toList ++ (u ++ ')' :: X) := by simp
          rw [e1, e2] at h1
          exact (List.prefix_append_right_inj _).1 h1
        exact absurd (isPrefix_of_not_mem _ ')' (by decide) _ _ h2) hp
  have hX' : ∀ c X', (')' :: X) = c :: X' → c ∉ "errors.Wrap(".toList := by
    intro c X' e
    rw [← (List.cons.inj e).1]
    decide
  have h1 := collapse_inner (')' :: X) hX' u hu.1
  have h2 : collapse (')' :: X) = ')' :: collapse X := collapse_skip _ _ (by simp)
  have e : "errors.Wrap(".toList ++ u ++ ")".toList ++ X =
      'e' :: ("rrors.Wrap(".toList ++ (u ++ ')' :: X)) := by simp
  rw [e] at h0 ⊢
  rw [collapse_of_none _ _ h0]
  simp [collapse_skip, h1, h2]

/-! ## Going through pieces of the argument text without splitting -/

theorem parenDepth_append (a b : GoString) :
    parenDepth (a ++ b) = parenDepth a + parenDepth b := by
  simp only [parenDepth, List.count_append, Nat.cast_add]
  omega

theorem parenDepth_of_parenFree (a : GoString) (h : parenFree a) : parenDepth a = 0 := by
  simp [parenDepth, List.count_eq_zero_of_not_mem h.1, List.count_eq_zero_of_not_mem h.2]

theorem endDepth_eq (a : GoString) : ∀ d : Int, endDepth d a = d + parenDepth a := by
  induction a with
  | nil => intro d; simp [endDepth, parenDepth]
  | cons c a ih =>
    intro d
    have e : endDepth d (c :: a) = endDepth (nextDepth d c) a := rfl
    rw [e, ih, parenDepth_cons]

theorem passes_append (d e f : Int) (a b : GoString) (h1 : passes d a e) (h2 : passes e b f) :
    passes d (a ++ b) f := by
  obtain ⟨h1a, h1b⟩ := h1
  obtain ⟨h2a, h2b⟩ := h2
  refine ⟨?_, ?_⟩
  · rw [restToks_append a b d h1a, h1b, h2a]
  · rw [endDepth_append, h1b, h2b]

theorem passes_of_no_comma (d : Int) (a : GoString) (h : ',' ∉ a) :
    passes d a (d + parenDepth a) :=
  ⟨restToks_of_no_comma a h d, endDepth_eq a d⟩

theorem passes_inner (d : Int) (hd : d ≠ 0) (x : GoString) (hx : parenFree x) : passes d x d := by
  refine ⟨?_, endDepth_of_parenFree x hx d⟩
  have := restToks_inner x [] d hd hx
  simpa [restToks] using this

theorem passes_sep (d : Int) (hd : d ≠ 0) : passes d ", ".toList d := by
  refine ⟨?_, ?_⟩
  · simp [restToks, hd]
  · simp [endDepth, nextDepth]

/-! ## The tokens one by one -/

theorem plainTok_passes (t : GoString) (h : plainTok t) (d : Int) : passes d t d := by
  have := passes_of_no_comma d t h.2.1
  rwa [parenDepth_of_parenFree t h.1, add_zero] at this

theorem wrapTok_passes (t : GoString) (h : wrapTok t) (d : Int) : passes d t d := by
  obtain ⟨u, rfl, hu, hc, -⟩ := h
  have := passes_of_no_comma d ("errors.Wrap(".toList ++ u ++ ")".toList) (by simp [hc])
  have e : parenDepth ("errors.Wrap(".toList ++ u ++ ")".toList) = 0 := by
    rw [parenDepth_append, parenDepth_append, parenDepth_of_parenFree u hu]
    decide
  rwa [e, add_zero] at this

theorem wrapTok_trim (t : GoString) (h : wrapTok t) : trimSpace t = t := by
  obtain ⟨u, rfl, -⟩ := h
  have := trimSpace_of_ends 'e' ')' ("rrors.Wrap(".toList ++ u) (by decide) (by decide)
  simpa using this

theorem wrapTok_wrapArg (t : GoString) (h : wrapTok t) : wrapArg t = t := by
  obtain ⟨u, rfl, -⟩ := h
  have := wrappable_errorsWrap (u ++ ")".toList)
  simp only [← List.append_assoc] at this
  unfold wrapArg
  rw [this]
  simp

theorem plainTok_wrapArg (t : GoString) (h : plainTok t) : wrapArg t = t := by
  simp [wrapArg, h.2.2.2]

theorem no_close_of_plainTok (t : GoString) (h : plainTok t) : ¬ "))".toList <:+: t :=
  fun hi => h.1.2 (hi.subset (by decide))

theorem no_close_of_wrapTok (t : GoString) (h : wrapTok t) : ¬ "))".toList <:+: t := by
  obtain ⟨u, rfl, hu, -⟩ := h
  have := close_single ("errors.Wrap(".toList ++ u) (by simp [hu.2])
  simpa using this

theorem no_close_sep (a b : GoString) (ha : ¬ "))".toList <:+: a) (hb : ¬ "))".toList <:+: b) :
    ¬ "))".toList <:+: a ++ ", ".toList ++ b := by
  intro h
  have e : a ++ ", ".toList ++ b = a ++ ',' :: ([' '] ++ b) := by simp
  rw [e] at h
  rcases occurs_split _ ',' (by decide) _ _ h with h | h
  · exact ha h
  · exact hb (occurs_drop_head ')' [')'] b [' '] (by decide) h)

theorem no_close_join (l : List GoString) (h : ∀ t ∈ l, ¬ "))".toList <:+: t) :
    ¬ "))".toList <:+: stringsJoin l ", ".toList := by
  intro hi
  obtain ⟨t, ht, hi⟩ := occurs_of_occurs_join _ (by decide) (by decide) (by decide) l hi
  exact h t ht hi

theorem no_close_joinEach (z : GoString) (hz : ¬ "))".toList <:+: z) :
    ∀ l : List GoString, (∀ t ∈ l, ¬ "))".toList <:+: t) →
      ¬ "))".toList <:+: joinEach l ++ z := by
  intro l
  induction l with
  | nil => intro _; simpa [joinEach] using hz
  | cons m l ih =>
    intro h
    have := no_close_sep m (joinEach l ++ z) (h m (List.mem_cons_self _ _))
      (ih (fun t ht => h t (List.mem_cons_of_mem _ ht)))
    simpa [joinEach, List.append_assoc] using this

theorem joinEach_passes (d : Int) (hd : d ≠ 0) : ∀ l : List GoString,
    (∀ t ∈ l, plainTok t ∨ wrapTok t) → passes d (joinEach l) d := by
  intro l
  induction l with
  | nil => intro _; exact ⟨rfl, rfl⟩
  | cons m l ih =>
    intro h
    have hm : passes d m d := by
      rcases h m (List.mem_cons_self _ _) with hm | hm
      · exact plainTok_passes m hm d
      · exact wrapTok_passes m hm d
    exact passes_append d d d _ _ (passes_append d d d _ _ hm (passes_sep d hd))
      (ih (fun t ht => h t (List.mem_cons_of_mem _ ht)))

/-! ## Joined lists -/

theorem stringsJoin_cons_tail (t : GoString) (l : List GoString) :
    stringsJoin (t :: l) ", ".toList = t ++ tailText l := by
  cases l with
  | nil => simp [tailText]
  | cons y l => rw [stringsJoin_cons_cons, tailText, List.append_assoc]

theorem stringsJoin_joinEach (z : GoString) (l' : List GoString) : ∀ l : List GoString,
    stringsJoin (l ++ z :: l') ", ".toList = joinEach l ++ (z ++ tailText l') := by
  intro l
  induction l with
  | nil =>
    simp only [joinEach, List.nil_append]
    exact stringsJoin_cons_tail z l'
  | cons m l ih =>
    cases h : l ++ z :: l' with
    | nil => simp at h
    | cons y r =>
      rw [List.cons_append, h, stringsJoin_cons_cons, ← h, ih]
      simp [joinEach, List.append_assoc]

theorem tailText_ctx (l : List GoString) :
    tailText l = [] ∨ ∃ Y, tailText l = ',' :: Y := by
  cases l with
  | nil => exact Or.inl rfl
  | cons t l => exact Or.inr ⟨_, by simp [tailText]; rfl⟩

theorem collapse_tailText (l : List GoString) :
    collapse (tailText l) =
      match l with
      | [] => []
      | t :: r => ", ".toList ++ collapse (stringsJoin (t :: r) ", ".toList) := by
  cases l with
  | nil => simp [tailText]
  | cons t r => simp only [tailText]; exact collapse_comma_space _

/-- One block of tokens `b`, collapsed to `cb`, before the other tokens. -/
theorem block_fix (b cb : GoString) (l : List GoString) (h1 : passes 0 cb 0)
    (h3 : trimSpace cb = cb) (h4 : wrapArg cb = b)
    (hC : collapse (b ++ tailText l) = cb ++ collapse (tailText l))
    (ih : rewriteArgs (collapse (stringsJoin l ", ".toList)) = stringsJoin l ", ".toList) :
    rewriteArgs (collapse (b ++ tailText l)) = b ++ tailText l := by
  rw [hC, collapse_tailText]
  cases l with
  | nil => simp [tailText, rewriteArgs_piece_last cb h1.1 h3, h4]
  | cons t r =>
    simp only [tailText]
    rw [← List.append_assoc, rewriteArgs_piece cb _ h1.1 h1.2 h3, h4, ih, List.append_assoc]

/-! ## Each kind of block is rewritten back by the second pass -/

theorem tailText_head (l : List GoString) :
    ∀ c X', tailText l = c :: X' → c ∉ "errors.Wrap(".toList := by
  intro c X' e
  rcases tailText_ctx l with h | ⟨Y, h⟩
  · rw [h] at e; cases e
  · rw [h] at e
    rw [← (List.cons.inj e).1]
    decide

theorem fix_plain (t : GoString) (l : List GoString) (ht : plainTok t)
    (ih : rewriteArgs (collapse (stringsJoin l ", ".toList)) = stringsJoin l ", ".toList) :
    rewriteArgs (collapse (t ++ tailText l)) = t ++ tailText l :=
  block_fix t t l (plainTok_passes t ht 0) ht.2.2.1 (plainTok_wrapArg t ht)
    (collapse_inner (tailText l) (tailText_head l) t ht.1.1) ih

theorem fix_wrap (u : GoString) (l : List GoString) (hu : parenFree u) (hc : ',' ∉ u)
    (hw : wrappable u = true)
    (hno : ¬ "errors.".toList <+: u ∨ ¬ "))".toList <:+: u ++ ')' :: tailText l)
    (ih : rewriteArgs (collapse (stringsJoin l ", ".toList)) = stringsJoin l ", ".toList) :
    rewriteArgs (collapse ("errors.Wrap(".toList ++ u ++ ")".toList ++ tailText l)) =
      "errors.Wrap(".toList ++ u ++ ")".toList ++ tailText l := by
  have ht : wrapTok ("errors.Wrap(".toList ++ u ++ ")".toList) := ⟨u, rfl, hu, hc, hw⟩
  exact block_fix _ _ l (wrapTok_passes _ ht 0) (wrapTok_trim _ ht) (wrapTok_wrapArg _ ht)
    (collapse_wrapTok u (tailText l) hu hno) ih

theorem callName_facts (q : GoString)
    (hq : q = "errors.New".toList ∨ q = "fmt.Errorf".toList ∨ q = "log.Error".toList) :
    ',' ∉ q ∧ parenFree q ∧ '\n' ∉ q := by
  rcases hq with rfl | rfl | rfl <;> exact ⟨by decide, ⟨by decide, by decide⟩, by decide⟩

theorem fix_call_other (q x : GoString) (l : List GoString)
    (hq : q = "fmt.Errorf".toList ∨ q = "log.Error".toList) (hx : parenFree x)
    (ih : rewriteArgs (collapse (stringsJoin l ", ".toList)) = stringsJoin l ", ".toList) :
    rewriteArgs (collapse
      ("errors.Wrap(".toList ++ q ++ "(".toList ++ x ++ "))".toList ++ tailText l)) =
      "errors.Wrap(".toList ++ q ++ "(".toList ++ x ++ "))".toList ++ tailText l := by
  have hqf := callName_facts q (Or.inr hq)
  have hp : passes 0 ("errors.Wrap(".toList ++ q ++ "(".toList ++ x ++ "))".toList) 0 := by
    have p1 := passes_of_no_comma 0 ("errors.Wrap(".toList ++ q ++ "(".toList)
      (by simp [hqf.1])
    have e1 : (0 : Int) + parenDepth ("errors.Wrap(".toList ++ q ++ "(".toList) = 2 := by
      rw [parenDepth_append, parenDepth_append, parenDepth_of_parenFree q hqf.2.1]
      decide
    rw [e1] at p1
    have p2 := passes_inner 2 (by decide) x hx
    have p3 : passes 2 "))".toList 0 := by
      have := passes_of_no_comma 2 "))".toList (by decide)
      exact this
    exact passes_append _ _ _ _ _ (passes_append _ _ _ _ _ p1 p2) p3
  have htrim : trimSpace ("errors.Wrap(".toList ++ q ++ "(".toList ++ x ++ "))".toList) =
      "errors.Wrap(".toList ++ q ++ "(".toList ++ x ++ "))".toList := by
    have := trimSpace_of_ends 'e' ')' ("rrors.Wrap(".toList ++ q ++ "(".toList ++ x ++ ")".toList)
      (by decide) (by decide)
    simpa using this
  have hwa : wrapArg ("errors.Wrap(".toList ++ q ++ "(".toList ++ x ++ "))".toList) =
      "errors.Wrap(".toList ++ q ++ "(".toList ++ x ++ "))".toList := by
    have := wrappable_errorsWrap (q ++ "(".toList ++ x ++ "))".toList)
    simp only [← List.append_assoc] at this
    unfold wrapArg
    rw [this]
    simp
  have hX : ∀ c X', ("))".toList ++ tailText l) = c :: X' → c ∉ "errors.Wrap(".toList := by
    intro c X' e
    have e' : ')' :: (')' :: tailText l) = c :: X' := e
    rw [← (List.cons.inj e').1]
    decide
  have h1 := collapse_inner ("))".toList ++ tailText l) hX x hx.1
  have h2 : collapse ("))".toList ++ tailText l) = "))".toList ++ collapse (tailText l) := by
    simp [collapse_skip]
  have hC : collapse ("errors.Wrap(".toList ++ q ++ "(".toList ++ x ++ "))".toList ++ tailText l)
      = "errors.Wrap(".toList ++ q ++ "(".toList ++ x ++ "))".toList ++ collapse (tailText l) := by
    have e : ∀ Z : GoString, "errors.Wrap(".toList ++ q ++ "(".toList ++ x ++ "))".toList ++ Z =
        "errors.Wrap(".toList ++ (q ++ ("(".toList ++ (x ++ ("))".toList ++ Z)))) := by
      intro Z; simp
    rw [e, e, ← h2, ← h1]
    rcases hq with rfl | rfl <;> simp [collapse_skip]
  exact block_fix _ _ l hp htrim hwa hC ih

theorem fix_call_new (x : GoString) (l : List GoString) (hx : parenFree x) (hn : '\n' ∉ x)
    (ih : rewriteArgs (collapse (stringsJoin l ", ".toList)) = stringsJoin l ", ".toList) :
    rewriteArgs (collapse
      ("errors.Wrap(".toList ++ "errors.New".toList ++ "(".toList ++ x ++ "))".toList ++
        tailText l)) =
      "errors.Wrap(".toList ++ "errors.New".toList ++ "(".toList ++ x ++ "))".toList ++
        tailText l := by
  have hp : passes 0 ("errors.".toList ++ ("New(".toList ++ x) ++ ")".toList) 0 := by
    have p1 := passes_of_no_comma 0 "errors.New(".toList (by decide)
    have e1 : (0 : Int) + parenDepth "errors.New(".toList = 1 := by decide
    rw [e1] at p1
    have p2 := passes_inner 1 (by decide) x hx
    have p3 : passes 1 ")".toList 0 := passes_of_no_comma 1 ")".toList (by decide)
    have := passes_append _ _ _ _ _ (passes_append _ _ _ _ _ p1 p2) p3
    simpa using this
  have htrim : trimSpace ("errors.".toList ++ ("New(".toList ++ x) ++ ")".toList) =
      "errors.".toList ++ ("New(".toList ++ x) ++ ")".toList := by
    have := trimSpace_of_ends 'e' ')' ("rrors.New(".toList ++ x) (by decide) (by decide)
    simpa using this
  have hwa : wrapArg ("errors.".toList ++ ("New(".toList ++ x) ++ ")".toList) =
      "errors.Wrap(".toList ++ ("errors.".toList ++ ("New(".toList ++ x) ++ ")".toList) ++
        ")".toList := by
    simp [wrapArg, wrappable]
  have hC := collapse_wrapped ("New(".toList ++ x) (tailText l)
    (close_single _ (by simp [hx.2])) (by simp [hn])
  have := block_fix _ _ l hp htrim hwa hC ih
  simpa using this

/-! ## A wrap that reaches to the end of a later wrapped call -/

theorem fix_group (u' q x cap : GoString) (mids l : List GoString)
    (hu : parenFree u') (hc : ',' ∉ u') (hnw : startsWith u' "New".toList = true)
    (hmids : ∀ m ∈ mids, plainTok m ∨ wrapTok m)
    (hq : q = "errors.New".toList ∨ q = "fmt.Errorf".toList ∨ q = "log.Error".toList)
    (hx : parenFree x)
    (hcap : cap = u' ++ ")".toList ++ ", ".toList ++ joinEach mids ++
      "errors.Wrap(".toList ++ q ++ "(".toList ++ x)
    (hn : '\n' ∉ cap)
    (ih : rewriteArgs (collapse (stringsJoin l ", ".toList)) = stringsJoin l ", ".toList) :
    rewriteArgs (collapse
      ("errors.Wrap(".toList ++ ("errors.".toList ++ cap ++ ")".toList) ++ ")".toList ++
        tailText l)) =
      "errors.Wrap(".toList ++ ("errors.".toList ++ cap ++ ")".toList) ++ ")".toList ++
        tailText l := by
  have hqf := callName_facts q hq
  have hp : passes 0 ("errors.".toList ++ cap ++ ")".toList) 0 := by
    have p1 : passes 0 ("errors.".toList ++ u') 0 := by
      have := passes_of_no_comma 0 ("errors.".toList ++ u') (by simp [hc])
      rwa [parenDepth_append, parenDepth_of_parenFree u' hu,
        show (0 : Int) + (parenDepth "errors.".toList + 0) = 0 by decide] at this
    have p2 : passes 0 ")".toList (-1) := passes_of_no_comma 0 ")".toList (by decide)
    have p3 := passes_sep (-1) (by decide)
    have p4 := joinEach_passes (-1) (by decide) mids hmids
    have p5 : passes (-1) ("errors.Wrap(".toList ++ q ++ "(".toList) 1 := by
      have := passes_of_no_comma (-1) ("errors.Wrap(".toList ++ q ++ "(".toList)
        (by simp [hqf.1])
      have e1 : (-1 : Int) + parenDepth ("errors.Wrap(".toList ++ q ++ "(".toList) = 1 := by
        rw [parenDepth_append, parenDepth_append, parenDepth_of_parenFree q hqf.2.1]
        decide
      rwa [e1] at this
    have p6 := passes_inner 1 (by decide) x hx
    have p7 : passes 1 ")".toList 0 := passes_of_no_comma 1 ")".toList (by decide)
    have := passes_append _ _ _ _ _ (passes_append _ _ _ _ _ (passes_append _ _ _ _ _
      (passes_append _ _ _ _ _ (passes_append _ _ _ _ _ (passes_append _ _ _ _ _ p1 p2) p3) p4)
      p5) p6) p7
    have e : "errors.".toList ++ cap ++ ")".toList =
        "errors.".toList ++ u' ++ ")".toList ++ ", ".toList ++ joinEach mids ++
          ("errors.Wrap(".toList ++ q ++ "(".toList) ++ x ++ ")".toList := by
      rw [hcap]; simp only [List.append_assoc]
    rw [e]
    exact this
  have htrim : trimSpace ("errors.".toList ++ cap ++ ")".toList) =
      "errors.".toList ++ cap ++ ")".toList := by
    have := trimSpace_of_ends 'e' ')' ("rrors.".toList ++ cap) (by decide) (by decide)
    simpa using this
  have hwa : wrapArg ("errors.".toList ++ cap ++ ")".toList) =
      "errors.Wrap(".toList ++ ("errors.".toList ++ cap ++ ")".toList) ++ ")".toList := by
    obtain ⟨u'', rfl⟩ := (startsWith_iff _ _).1 hnw
    rw [hcap]
    simp [wrapArg, wrappable]
  have h1 : ¬ "))".toList <:+: cap ++ [')'] := by
    have hz : ¬ "))".toList <:+: ("errors.Wrap(".toList ++ q ++ "(".toList ++ x) ++ [')'] :=
      close_single _ (by simp [hqf.2.1.2, hx.2])
    have hm : ∀ t ∈ mids, ¬ "))".toList <:+: t := by
      intro t ht
      rcases hmids t ht with h | h
      · exact no_close_of_plainTok t h
      · exact no_close_of_wrapTok t h
    have := no_close_sep (u' ++ [')']) _ (close_single u' hu.2) (no_close_joinEach _ hz mids hm)
    have e : cap ++ [')'] = u' ++ [')'] ++ ", ".toList ++
        (joinEach mids ++ (("errors.Wrap(".toList ++ q ++ "(".toList ++ x) ++ [')'])) := by
      rw [hcap]; simp only [String.toList, List.append_assoc]
    rw [e]
    exact this
  exact block_fix _ _ l hp htrim hwa (collapse_wrapped cap (tailText l) h1 hn) ih

theorem exists_first (P : GoString → Prop) : ∀ l : List GoString, (∃ z ∈ l, P z) →
    ∃ a z b, l = a ++ z :: b ∧ P z ∧ ∀ y ∈ a, ¬ P y := by
  intro l
  induction l with
  | nil => rintro ⟨z, hz, _⟩; cases hz
  | cons x l ih =>
    intro h
    by_cases hx : P x
    · exact ⟨[], x, l, rfl, hx, by simp⟩
    · have : ∃ z ∈ l, P z := by
        obtain ⟨z, hz, hp⟩ := h
        rcases List.mem_cons.1 hz with rfl | hz
        · exact absurd hp hx
        · exact ⟨z, hz, hp⟩
      obtain ⟨a, z, b, rfl, hz, ha⟩ := ih this
      refine ⟨x :: a, z, b, rfl, hz, ?_⟩
      intro y hy
      rcases List.mem_cons.1 hy with rfl | hy
      · exact hx
      · exact ha y hy

theorem tailText_append (mids : List GoString) (z : GoString) (l : List GoString) :
    tailText (mids ++ z :: l) = ", ".toList ++ (joinEach mids ++ (z ++ tailText l)) := by
  cases h : mids ++ z :: l with
  | nil => simp at h
  | cons y r => rw [tailText, ← h, stringsJoin_joinEach]

theorem wrappable_errors (u' : GoString) :
    wrappable ("errors.".toList ++ u') = startsWith u' "New".toList := by
  simp [wrappable]

theorem mem_tailText (c : Char) (l : List GoString) (h : c ∈ stringsJoin l ", ".toList) :
    c ∈ tailText l := by
  cases l with
  | nil => rw [stringsJoin_nil] at h; cases h
  | cons y r => exact List.mem_append_right _ h

/-- The second pass gives back what the first pass wrote: on the joined tokens
of a first pass over recognized arguments, collapsing and rewriting again is
the identity. -/
theorem rewrite_collapse_fix (n : Nat) : ∀ T : List GoString, T.length ≤ n →
    (∀ t ∈ T, plainTok t ∨ wrapTok t ∨ callTok t) → '\n' ∉ stringsJoin T ", ".toList →
    rewriteArgs (collapse (stringsJoin T ", ".toList)) = stringsJoin T ", ".toList := by
  induction n with
  | zero =>
    intro T hT _ _
    have : T = [] := List.length_eq_zero.1 (Nat.le_zero.1 hT)
    subst this
    decide
  | succ n ih =>
    intro T hT htok hnl
    cases T with
    | nil => decide
    | cons t T' =>
      have hlen : T'.length ≤ n := by simpa using hT
      rw [stringsJoin_cons_tail] at hnl ⊢
      have hnlT : '\n' ∉ stringsJoin T' ", ".toList :=
        fun h => hnl (List.mem_append_right _ (mem_tailText _ _ h))
      have htokT : ∀ z ∈ T', plainTok z ∨ wrapTok z ∨ callTok z :=
        fun z hz => htok z (List.mem_cons_of_mem _ hz)
      have ihT := ih T' hlen htokT hnlT
      rcases htok t (List.mem_cons_self _ _) with ht | ⟨u, rfl, hu, hc, hw⟩ | ⟨q, x, rfl, hq, hx⟩
      · exact fix_plain t T' ht ihT
      · by_cases hp : "errors.".toList <+: u
        · by_cases hex : ∃ z ∈ T', callTok z
          · obtain ⟨mids, tc, T'', rfl, ⟨q, x, rfl, hq, hx⟩, hmids⟩ := exists_first callTok T' hex
            obtain ⟨u', rfl⟩ := hp
            have hu' : parenFree u' :=
              ⟨fun h => hu.1 (by simp [h]), fun h => hu.2 (by simp [h])⟩
            have hc' : ',' ∉ u' := fun h => hc (by simp [h])
            have hnw : startsWith u' "New".toList = true := by
              rw [← wrappable_errors]; exact hw
            have hm : ∀ m ∈ mids, plainTok m ∨ wrapTok m := by
              intro m hmem
              rcases htokT m (by simp [hmem]) with h | h | h
              · exact Or.inl h
              · exact Or.inr h
              · exact absurd h (hmids m hmem)
            have hl2 : T''.length ≤ n := by
              simp at hlen; omega
            have e : "errors.Wrap(".toList ++ ("errors.".toList ++ u') ++ ")".toList ++
                tailText (mids ++ ("errors.Wrap(".toList ++ q ++ "(".toList ++ x ++
                  "))".toList) :: T'') =
                "errors.Wrap(".toList ++ ("errors.".toList ++ (u' ++ ")".toList ++ ", ".toList ++
                  joinEach mids ++ "errors.Wrap(".toList ++ q ++ "(".toList ++ x) ++
                  ")".toList) ++ ")".toList ++ tailText T'' := by
              rw [tailText_append]
              simp only [String.toList, List.append_assoc, List.cons_append, List.nil_append]
            rw [e] at hnl ⊢
            have hnl2 : '\n' ∉ stringsJoin T'' ", ".toList :=
              fun h => hnl (List.mem_append_right _ (mem_tailText _ _ h))
            have ih2 := ih T'' hl2
              (fun z hz => htokT z (by simp [hz])) hnl2
            refine fix_group u' q x _ mids T'' hu' hc' hnw hm hq hx rfl ?_ ih2
            intro h
            apply hnl
            have hi : (u' ++ ")".toList ++ ", ".toList ++ joinEach mids ++ "errors.Wrap(".toList ++
                q ++ "(".toList ++ x) <:+:
                "errors.Wrap(".toList ++ ("errors.".toList ++ (u' ++ ")".toList ++ ", ".toList ++
                  joinEach mids ++ "errors.Wrap(".toList ++ q ++ "(".toList ++ x) ++
                  ")".toList) ++ ")".toList ++ tailText T'' :=
              ⟨"errors.Wrap(".toList ++ "errors.".toList,
                ")".toList ++ ")".toList ++ tailText T'', by simp only [List.append_assoc]⟩
            exact hi.subset h
          · have hall : ∀ z ∈ T', ¬ "))".toList <:+: z := by
              intro z hz
              rcases htokT z hz with h | h | h
              · exact no_close_of_plainTok z h
              · exact no_close_of_wrapTok z h
              · exact absurd ⟨z, hz, h⟩ hex
            have hno : ¬ "))".toList <:+: u ++ ')' :: tailText T' := by
              cases T' with
              | nil =>
                have := close_single u hu.2
                simpa [tailText] using this
              | cons y r =>
                have := no_close_sep (u ++ [')']) _ (close_single u hu.2)
                  (no_close_join (y :: r) hall)
                simpa [tailText] using this
            exact fix_wrap u T' hu hc hw (Or.inr hno) ihT
        · exact fix_wrap u T' hu hc hw (Or.inl hp) ihT
      · have hnx : '\n' ∉ x := by
          intro h
          apply hnl
          have hi : x <:+: "errors.Wrap(".toList ++ q ++ "(".toList ++ x ++ "))".toList ++
              tailText T' :=
            ⟨"errors.Wrap(".toList ++ q ++ "(".toList, "))".toList ++ tailText T',
              by simp only [List.append_assoc]⟩
          exact hi.subset h
        rcases hq with rfl | hq
        · exact fix_call_new x T' hx hnx ihT
        · exact fix_call_other q x T' hq hx ihT

/-! ## Two passes over a line -/

theorem collapse_eq_self_of_no_wrapOpen (s : GoString)
    (h : ¬ "errors.Wrap(".toList <:+: s) : collapse s = s := by
  induction s with
  | nil => simp
  | cons c cs ih =>
    have hn : startsWith (c :: cs) "errors.Wrap(errors.".toList = false := by
      cases hs : startsWith (c :: cs) "errors.Wrap(errors.".toList with
      | false => rfl
      | true =>
        have h1 := (startsWith_iff_isPrefix _ _).1 hs
        have h2 : "errors.Wrap(".toList <+: "errors.Wrap(errors.".toList :=
          ⟨"errors.".toList, by decide⟩
        exact absurd (h2.trans h1).isInfix h
    rw [collapse_skip c cs hn, ih (fun hi => h (List.infix_cons hi))]

theorem not_mem_rewriteArgs (Y : GoString) (h : '\n' ∉ Y) : '\n' ∉ rewriteArgs Y := by
  intro hm
  obtain ⟨a, b, e⟩ := List.append_of_mem hm
  have hi : ['\n'] <:+: rewriteArgs Y := ⟨a, b, by rw [e]; simp⟩
  have := occurs_join_wrapped '\n' [] (by decide) (by decide) (by decide) (by decide) _ hi
  rw [rawTokens_join] at this
  exact h (this.subset (List.mem_singleton_self _))

theorem all_space_or (Y : GoString) :
    (∀ c ∈ Y, isSpace c = true) ∨ ∃ x ∈ Y, isSpace x = false := by
  by_cases h : ∀ c ∈ Y, isSpace c = true
  · exact Or.inl h
  · right
    push_neg at h
    obtain ⟨x, hx, hs⟩ := h
    exact ⟨x, hx, by simpa using hs⟩

theorem collapse_of_all_space (Y : GoString) (h : ∀ c ∈ Y, isSpace c = true) :
    collapse Y = Y :=
  collapse_eq_self_of_no_open Y (fun hm => absurd (h _ hm) (by decide))

/-- A line indentation, `return `, argument text `Y`: when the Collapse Pass
leaves `Y` alone and the second pass gives back the arguments the first pass
wrote, processing the processed line changes nothing. -/
theorem idempotent_of_fix (ind Y : GoString) (hind : ∀ c ∈ ind, isSpace c = true)
    (hl : isLine (ind ++ "return ".toList ++ Y))
    (h0 : collapse Y = Y)
    (hfix : rewriteArgs (collapse (rewriteArgs Y)) = rewriteArgs Y) :
    ∃ out, processLine (ind ++ "return ".toList ++ Y) = LineResult.written out ∧
      processLine out = LineResult.written out := by
  have hsame : ∀ hw : wrapLine (ind ++ "return ".toList ++ Y) =
      some (ind ++ "return ".toList ++ Y, none),
      processLine (ind ++ "return ".toList ++ Y) =
        LineResult.written (ind ++ "return ".toList ++ Y) := by
    intro hw
    rw [processLine_of_wrapLine _ _ hw, collapse_form Y ind hind, h0]
  rcases all_space_or Y with hY | hY
  · have := hsame (wrapLine_form_blank ind Y hind hY)
    exact ⟨_, this, this⟩
  · by_cases hm : noWrapMatcher.MatchString (trimSpace (ind ++ "return ".toList ++ Y)) = true
    · have := hsame (wrapLine_of_match _ hm)
      exact ⟨_, this, this⟩
    · have hm2 := Bool.eq_false_iff.2 hm
      have hw := wrapLine_form_rewrite ind Y hind hY hm2
      have h1 : processLine (ind ++ "return ".toList ++ Y) =
          LineResult.written (ind ++ "return ".toList ++ collapse (rewriteArgs Y)) := by
        rw [processLine_of_wrapLine _ _ hw, collapse_form _ ind hind]
      refine ⟨_, h1, ?_⟩
      rcases all_space_or (collapse (rewriteArgs Y)) with hZ | hZ
      · rw [processLine_of_wrapLine _ _ (wrapLine_form_blank ind _ hind hZ),
          collapse_form _ ind hind, collapse_of_all_space _ hZ]
      · have hm3 : noWrapMatcher.MatchString
            (trimSpace (ind ++ "return ".toList ++ collapse (rewriteArgs Y))) = false := by
          cases hc : noWrapMatcher.MatchString
            (trimSpace (ind ++ "return ".toList ++ collapse (rewriteArgs Y))) with
          | false => rfl
          | true =>
            exfalso
            apply hm
            have k1 := hasMarker_of_isInfix _ _ (trimSpace_isInfix _) (hasMarker_of_match _ hc)
            rw [← collapse_form _ ind hind] at k1
            have k2 := hasMarker_collapse _ _ (Nat.le_refl _) k1
            have k3 := hasMarker_wrapLine _ _ hw k2
            exact match_of_hasMarker _ (isLine_trimSpace _ hl) (hasMarker_trimSpace _ k3)
        rw [processLine_of_wrapLine _ _ (wrapLine_form_rewrite ind _ hind hZ hm3), hfix,
          collapse_form _ ind hind]

/-! ## Lines of recognized arguments -/

theorem trimSpace_eq_self (t : GoString) (h1 : ∀ c u, t = c :: u → isSpace c = false)
    (h2 : ∀ c u, t = u ++ [c] → isSpace c = false) : trimSpace t = t := by
  cases t with
  | nil => rfl
  | cons c u =>
    have hc : ¬ isSpace c = true := by simp [h1 c u rfl]
    rw [trimSpace, List.dropWhile_cons_of_neg hc]
    rcases List.eq_nil_or_concat (c :: u) with h | ⟨l, y, h⟩
    · cases h
    · rw [List.concat_eq_append] at h
      have hy : ¬ isSpace y = true := by simp [h2 y l h]
      rw [h, List.rdropWhile_concat_neg _ _ _ hy]

theorem trimSpace_idem (a : GoString) : trimSpace (trimSpace a) = trimSpace a :=
  trimSpace_eq_self _ (fun c u h => trimSpace_head a c u h) (fun c u h => trimSpace_last a c u h)

theorem call_passes (q x : GoString)
    (hq : q = "errors.New".toList ∨ q = "fmt.Errorf".toList ∨ q = "log.Error".toList)
    (hx : parenFree x) : passes 0 (q ++ "(".toList ++ x ++ ")".toList) 0 := by
  have hqf := callName_facts q hq
  have p1 := passes_of_no_comma 0 (q ++ "(".toList) (by simp [hqf.1])
  have e1 : (0 : Int) + parenDepth (q ++ "(".toList) = 1 := by
    rw [parenDepth_append, parenDepth_of_parenFree q hqf.2.1]
    decide
  rw [e1] at p1
  have p2 := passes_inner 1 (by decide) x hx
  have p3 : passes 1 ")".toList 0 := passes_of_no_comma 1 ")".toList (by decide)
  exact passes_append _ _ _ _ _ (passes_append _ _ _ _ _ p1 p2) p3

/-- The call forms of `recognizedArg`, with the name apart. -/
theorem recognizedArg_cases (a : GoString) (h : recognizedArg a) :
    a = "err".toList ∨
    (∃ q x, (q = "errors.New".toList ∨ q = "fmt.Errorf".toList ∨ q = "log.Error".toList) ∧
      parenFree x ∧ a = q ++ "(".toList ++ x ++ ")".toList) ∨
    (wrappable a = false ∧ parenFree a ∧ ',' ∉ a) := by
  rcases h with h | ⟨x, hx, h | h | h⟩ | h
  · exact Or.inl h
  · exact Or.inr (Or.inl ⟨_, x, Or.inl rfl, hx, by rw [h]; simp⟩)
  · exact Or.inr (Or.inl ⟨_, x, Or.inr (Or.inl rfl), hx, by rw [h]; simp⟩)
  · exact Or.inr (Or.inl ⟨_, x, Or.inr (Or.inr rfl), hx, by rw [h]; simp⟩)
  · exact Or.inr (Or.inr h)

theorem recognizedArg_passes (a : GoString) (h : recognizedArg a) : passes 0 a 0 := by
  rcases recognizedArg_cases a h with rfl | ⟨q, x, hq, hx, rfl⟩ | ⟨_, hp, hc⟩
  · exact passes_of_no_comma 0 "err".toList (by decide)
  · exact call_passes q x hq hx
  · have := passes_of_no_comma 0 a hc
    rwa [parenDepth_of_parenFree a hp, add_zero] at this

theorem call_trim (q x : GoString)
    (hq : q = "errors.New".toList ∨ q = "fmt.Errorf".toList ∨ q = "log.Error".toList) :
    trimSpace (q ++ "(".toList ++ x ++ ")".toList) = q ++ "(".toList ++ x ++ ")".toList := by
  rcases hq with rfl | rfl | rfl
  · have := trimSpace_of_ends 'e' ')' ("rrors.New(".toList ++ x) (by decide) (by decide)
    simpa using this
  · have := trimSpace_of_ends 'f' ')' ("mt.Errorf(".toList ++ x) (by decide) (by decide)
    simpa using this
  · have := trimSpace_of_ends 'l' ')' ("og.Error(".toList ++ x) (by decide) (by decide)
    simpa using this

theorem call_wrappable (q x : GoString)
    (hq : q = "errors.New".toList ∨ q = "fmt.Errorf".toList ∨ q = "log.Error".toList) :
    wrappable (q ++ "(".toList ++ x ++ ")".toList) = true := by
  rcases hq with rfl | rfl | rfl <;> simp [wrappable]

theorem recognizedArg_token (a : GoString) (h : recognizedArg a) :
    plainTok (wrapArg (trimSpace a)) ∨ wrapTok (wrapArg (trimSpace a)) ∨
      callTok (wrapArg (trimSpace a)) := by
  rcases recognizedArg_cases a h with rfl | ⟨q, x, hq, hx, rfl⟩ | ⟨_, hp, hc⟩
  · refine Or.inr (Or.inl ⟨"err".toList, by decide, ⟨by decide, by decide⟩, by decide, by decide⟩)
  · refine Or.inr (Or.inr ⟨q, x, ?_, hq, hx⟩)
    rw [call_trim q x hq, wrapArg, if_pos (call_wrappable q x hq)]
    simp
  · have hp' : parenFree (trimSpace a) :=
      ⟨fun hm => hp.1 ((trimSpace_isInfix a).subset hm),
       fun hm => hp.2 ((trimSpace_isInfix a).subset hm)⟩
    have hc' : ',' ∉ trimSpace a := fun hm => hc ((trimSpace_isInfix a).subset hm)
    by_cases hw : wrappable (trimSpace a) = true
    · refine Or.inr (Or.inl ⟨trimSpace a, ?_, hp', hc', hw⟩)
      rw [wrapArg, if_pos hw]
    · refine Or.inl ?_
      rw [wrapArg, if_neg hw]
      exact ⟨hp', hc', trimSpace_idem a, by simpa using hw⟩

theorem rawTokens_join_args : ∀ args : List GoString, args ≠ [] →
    (∀ a ∈ args, passes 0 a 0) →
    (rawTokens 0 (stringsJoin args ", ".toList)).map trimSpace = args.map trimSpace := by
  intro args
  induction args with
  | nil => intro h; exact absurd rfl h
  | cons a l ih =>
    intro _ hp
    have ha := hp a (List.mem_cons_self _ _)
    cases l with
    | nil =>
      rw [stringsJoin_singleton, rawTokens_piece_last a ha.1]
    | cons b l =>
      have e : stringsJoin (a :: b :: l) ", ".toList =
          a ++ ',' :: ' ' :: stringsJoin (b :: l) ", ".toList := by
        rw [stringsJoin_cons_cons]; simp
      rw [e, rawTokens_piece a _ ha.1 ha.2, List.map_cons, rawTokens_space_cons,
        ih (by simp) (fun x hx => hp x (List.mem_cons_of_mem _ hx))]
      rfl

theorem no_wrapOpen_of_recognizedArg (a : GoString) (h : recognizedArg a) :
    ¬ "errors.Wrap(".toList <:+: a := by
  intro hi
  rcases recognizedArg_cases a h with rfl | ⟨q, x, hq, hx, rfl⟩ | ⟨_, hp, _⟩
  · exact absurd hi (by decide)
  · have hx' : ¬ "errors.Wrap(".toList <:+: x ++ [')'] :=
      fun h => hx.1 (by
        have := h.subset (show '(' ∈ "errors.Wrap(".toList by decide)
        simpa using this)
    rcases hq with rfl | rfl | rfl <;>
      simp [List.infix_cons_iff] at hi <;> exact hx' (by simpa using hi)
  · exact hp.1 (hi.subset (by decide))

/-! ## The claim about two passes -/

theorem recognized_fix (args : List GoString) (hargs : ∀ a ∈ args, recognizedArg a)
    (hn : '\n' ∉ stringsJoin args ", ".toList) :
    rewriteArgs (collapse (rewriteArgs (stringsJoin args ", ".toList))) =
      rewriteArgs (stringsJoin args ", ".toList) := by
  cases hne : args with
  | nil => decide
  | cons a l =>
    rw [← hne]
    have h1 : rewriteArgs (stringsJoin args ", ".toList) =
        stringsJoin ((args.map trimSpace).map wrapArg) ", ".toList := by
      rw [rewriteArgs, rawTokens_join_args args (by simp [hne])
        (fun x hx => recognizedArg_passes x (hargs x hx))]
    have hn2 : '\n' ∉ stringsJoin ((args.map trimSpace).map wrapArg) ", ".toList := by
      rw [← h1]; exact not_mem_rewriteArgs _ hn
    rw [h1]
    refine rewrite_collapse_fix _ _ (Nat.le_refl _) ?_ hn2
    intro t ht
    obtain ⟨t1, ht1, rfl⟩ := List.mem_map.1 ht
    obtain ⟨x, hx, rfl⟩ := List.mem_map.1 ht1
    exact recognizedArg_token x (hargs x hx)

theorem recognized_collapse (args : List GoString) (hargs : ∀ a ∈ args, recognizedArg a) :
    collapse (stringsJoin args ", ".toList) = stringsJoin args ", ".toList := by
  apply collapse_eq_self_of_no_wrapOpen
  intro hi
  obtain ⟨t, ht, hi⟩ := occurs_of_occurs_join _ (by decide) (by decide) (by decide) args hi
  exact no_wrapOpen_of_recognizedArg t (hargs t ht) hi

/-- C7: with `P` the processing of a line (`wrapLine`, then the Collapse
Pass), `P (P line) = P line` for every line made of indentation, `return `
and arguments separated by `, `, each argument `err`, or `errors.New(a)`,
`fmt.Errorf(a)` or `log.Error(a)` with `a` free of parentheses, or a text that
`wrappable` rejects and that holds no parenthesis and no comma. -/
theorem processLine_idempotent (ind : GoString) (args : List GoString)
    (hind : ∀ c ∈ ind, isSpace c = true) (hargs : ∀ a ∈ args, recognizedArg a)
    (hl : isLine (ind ++ "return ".toList ++ stringsJoin args ", ".toList)) :
    ∃ out, processLine (ind ++ "return ".toList ++ stringsJoin args ", ".toList) =
        LineResult.written out ∧
      processLine out = LineResult.written out := by
  have hn : '\n' ∉ stringsJoin args ", ".toList := fun h => hl (List.mem_append_right _ h)
  exact idempotent_of_fix ind _ hind hl (recognized_collapse args hargs)
    (recognized_fix args hargs hn)

/-- C7, at the line `return nil, errors.New("bad"), fmt.Errorf("x: %d", n), err`
after a tab. -/
theorem processLine_idempotent_witness :
    (∀ c ∈ "\t".toList, isSpace c = true) ∧
    (∀ a ∈ ["nil".toList, "errors.New(\"bad\")".toList, "fmt.Errorf(\"x: %d\", n)".toList,
      "err".toList], recognizedArg a) ∧
    isLine ("\t".toList ++ "return ".toList ++ stringsJoin ["nil".toList,
      "errors.New(\"bad\")".toList, "fmt.Errorf(\"x: %d\", n)".toList, "err".toList]
      ", ".toList) ∧
    ∃ out, processLine ("\t".toList ++ "return ".toList ++ stringsJoin ["nil".toList,
      "errors.New(\"bad\")".toList, "fmt.Errorf(\"x: %d\", n)".toList, "err".toList]
      ", ".toList) = LineResult.written out ∧
      processLine out = LineResult.written out :=
  have h2 : ∀ a ∈ ["nil".toList, "errors.New(\"bad\")".toList,
      "fmt.Errorf(\"x: %d\", n)".toList, "err".toList], recognizedArg a := by
    intro a ha
    simp only [List.mem_cons, List.mem_singleton, List.not_mem_nil, or_false] at ha
    rcases ha with rfl | rfl | rfl | rfl
    · exact Or.inr (Or.inr ⟨by decide, ⟨by decide, by decide⟩, by decide⟩)
    · exact Or.inr (Or.inl ⟨"\"bad\"".toList, ⟨by decide, by decide⟩, Or.inl (by decide)⟩)
    · exact Or.inr (Or.inl ⟨"\"x: %d\", n".toList, ⟨by decide, by decide⟩,
        Or.inr (Or.inl (by decide))⟩)
    · exact Or.inl rfl
  ⟨by decide, h2, by decide, processLine_idempotent _ _ (by decide) h2 (by decide)⟩

/-! ## The claims about the classifier -/

/-- C12: `wrappable t` is true exactly when `t` is `err`, or begins with
`errors.New`, or with `fmt.Errorf`, or with `log.Error`; it is true for `err`,
`errors.New("x")`, `fmt.Errorf("x")`, `log.Error(x)` and false for `nil` and
`42`. -/
theorem wrappable_iff (t : GoString) :
    (wrappable t = true ↔
      t = "err".toList ∨ "errors.New".toList <+: t ∨ "fmt.Errorf".toList <+: t ∨
        "log.Error".toList <+: t) ∧
    wrappable "err".toList = true ∧ wrappable "errors.New(\"x\")".toList = true ∧
    wrappable "fmt.Errorf(\"x\")".toList = true ∧ wrappable "log.Error(x)".toList = true ∧
    wrappable "nil".toList = false ∧ wrappable "42".toList = false := by
  refine ⟨?_, by decide, by decide, by decide, by decide, by decide, by decide⟩
  simp only [← startsWith_iff_isPrefix]
  unfold wrappable
  by_cases h1 : t = "err".toList
  · simp [h1]
  · cases h2 : startsWith t "errors.New".toList <;>
      cases h3 : startsWith t "fmt.Errorf".toList <;>
      cases h4 : startsWith t "log.Error".toList <;>
      simp only [h1, if_false] <;> simp

/-- C13: a token that begins with `errors.Wrap(` is rejected by `wrappable`,
so the loop of `wrapLine` over the tokens leaves it as it is. -/
theorem wrappable_wrapped (t : GoString) (h : "errors.Wrap(".toList <+: t) :
    wrappable t = false ∧ wrapArg t = t := by
  obtain ⟨u, rfl⟩ := h
  have hw := wrappable_errorsWrap u
  refine ⟨hw, ?_⟩
  unfold wrapArg
  rw [hw]
  simp

/-- C13, at the token `errors.Wrap(err)`. -/
theorem wrappable_wrapped_witness :
    "errors.Wrap(".toList <+: "errors.Wrap(err)".toList ∧
    wrappable "errors.Wrap(err)".toList = false ∧
    wrapArg "errors.Wrap(err)".toList = "errors.Wrap(err)".toList :=
  ⟨⟨"err)".toList, by decide⟩, wrappable_wrapped _ ⟨"err)".toList, by decide⟩⟩

/-! ## The claim that idempotence is partial -/

/-- C17: one pass is not always a fixed point: the line
`return errors.Wrap(errors.Wrap(errors.Wrap(err)))` is processed to
`return errors.Wrap(errors.Wrap(err))`, and that line to
`return errors.Wrap(err)`. -/
theorem processLine_not_idempotent :
    processLine "return errors.Wrap(errors.Wrap(errors.Wrap(err)))".toList =
      LineResult.written "return errors.Wrap(errors.Wrap(err))".toList ∧
    processLine "return errors.Wrap(errors.Wrap(err))".toList =
      LineResult.written "return errors.Wrap(err)".toList ∧
    processLine "return errors.Wrap(errors.Wrap(err))".toList ≠
      LineResult.written "return errors.Wrap(errors.Wrap(err))".toList := by
  decide

/-! ## The claim that nothing fails -/

/-- C14: `wrapLine` and `tokenizeArgs` are total: on every input `wrapLine`
returns a line and a nil error, `tokenizeArgs` returns its tokens, and neither
`tokens[i]` nor `parts[0]` is out of range (no panic); so on the empty text, on
unbalanced parentheses and on commas only. -/
theorem wrapLine_tokenizeArgs_total (line args : GoString) :
    (∃ wl, wrapLine line = some (wl, none)) ∧
    (∃ toks, tokenizeArgs args = some toks) ∧
    (∃ part0, (stringsSplit line "return ".toList).get? 0 = some part0) ∧
    wrapLine [] = some ([], none) ∧
    tokenizeArgs [] = some [[]] ∧
    tokenizeArgs "((a, b".toList = some ["((a, b".toList] ∧
    tokenizeArgs "a), b".toList = some ["a), b".toList] ∧
    tokenizeArgs ",,".toList = some [[], [], []] ∧
    wrapLine "return ),(,".toList = some ("return ),(, ".toList, none) := by
  refine ⟨?_, ⟨_, tokenizeArgs_eq args⟩, ?_, by decide, by decide, by decide, by decide,
    by decide, by decide⟩
  · obtain ⟨wl, h, _⟩ := processLine_written line
    exact ⟨wl, h⟩
  · unfold stringsSplit
    cases h : stringsSplitAux "return ".toList 0 [] line with
    | nil => exact absurd h (stringsSplitAux_ne_nil _ _ _ _)
    | cons p ps => exact ⟨p, rfl⟩

/-! ## The claim about a trailing comment -/

/-- C19: eligibility is decided on the whole token, trailing comment
included: for a comment text `c` without comma and without `nowrap`,
`wrapLine` on `return err // c` does not wrap `err`; it returns the line with
its trailing white space removed and nothing else changed. -/
theorem wrapLine_trailing_comment (c : GoString) (hc : ',' ∉ c)
    (hn : ¬ occursIn "nowrap".toList c) :
    wrapLine ("return err // ".toList ++ c) =
      some (("return err // ".toList ++ c).rdropWhile isSpace, none) := by
  have hr : ("return err // ".toList ++ c).rdropWhile isSpace =
      "return ".toList ++ ("err //".toList ++ (' ' :: c).rdropWhile isSpace) := by
    have := rdropWhile_append_of_not (p := isSpace) "return err /".toList '/' (' ' :: c)
      (by decide)
    simpa using this
  have hsub : ∀ x ∈ (' ' :: c).rdropWhile isSpace, x ∈ ' ' :: c :=
    fun x hx => (List.rdropWhile_prefix _ _).subset hx
  have htrim : trimSpace ("return err // ".toList ++ c) =
      "return ".toList ++ ("err //".toList ++ (' ' :: c).rdropWhile isSpace) := by
    rw [← hr]
    show (List.dropWhile isSpace ('r' :: ("eturn err // ".toList ++ c))).rdropWhile isSpace = _
    rw [List.dropWhile_cons_of_neg (by decide)]
    rfl
  have hm : noWrapMatcher.MatchString (trimSpace ("return err // ".toList ++ c)) = false := by
    cases h : noWrapMatcher.MatchString (trimSpace ("return err // ".toList ++ c)) with
    | false => rfl
    | true =>
      exfalso
      have k1 := hasMarker_of_isInfix _ _ (trimSpace_isInfix _) (hasMarker_of_match _ h)
      obtain ⟨a, r, e, k2⟩ := (hasMarker_iff _).1 k1
      have k3 : "nowrap".toList <:+: "return err // ".toList ++ c :=
        k2.trans ⟨a ++ "//".toList, [], by rw [e]; simp⟩
      have e2 : "return err // ".toList ++ c = "return".toList ++ ' ' :: ("err // ".toList ++ c) := by
        simp
      rw [e2] at k3
      rcases occurs_split _ ' ' (by decide) _ _ k3 with k | k
      · exact absurd k (by decide)
      · exact hn (occurs_drop_head 'n' "owrap".toList c _ (by decide) k)
  have hcomma : ',' ∉ "err //".toList ++ (' ' :: c).rdropWhile isSpace := by
    intro h
    rcases List.mem_append.1 h with h | h
    · exact absurd h (by decide)
    · rcases List.mem_cons.1 (hsub _ h) with h | h
      · exact absurd h (by decide)
      · exact hc h
  have htok : rawTokens 0 ("err //".toList ++ (' ' :: c).rdropWhile isSpace) =
      ["err //".toList ++ (' ' :: c).rdropWhile isSpace] :=
    rawTokens_piece_last _ (restToks_of_no_comma _ hcomma 0)
  have hts : trimSpace ("err //".toList ++ (' ' :: c).rdropWhile isSpace) =
      "err //".toList ++ (' ' :: c).rdropWhile isSpace := by
    have e : "err //".toList ++ (' ' :: c).rdropWhile isSpace =
        ("err // ".toList ++ c).rdropWhile isSpace := by
      have := rdropWhile_append_of_not (p := isSpace) "err /".toList '/' (' ' :: c) (by decide)
      simpa using this.symm
    have h1 : trimSpace ("err //".toList ++ (' ' :: c).rdropWhile isSpace) =
        ("err //".toList ++ (' ' :: c).rdropWhile isSpace).rdropWhile isSpace := by
      show (List.dropWhile isSpace
        ('e' :: ("rr //".toList ++ (' ' :: c).rdropWhile isSpace))).rdropWhile isSpace = _
      rw [List.dropWhile_cons_of_neg (by decide)]
      rfl
    rw [h1, e, List.rdropWhile_idempotent]
  have hw : wrapArg ("err //".toList ++ (' ' :: c).rdropWhile isSpace) =
      "err //".toList ++ (' ' :: c).rdropWhile isSpace := by
    simp [wrapArg, wrappable]
  have hl : leadingSpace ("return err // ".toList ++ c) = [] := by
    simp [leadingSpace, List.takeWhile, show isSpace 'r' = false by decide]
  rw [wrapLine_eq _ _ htrim hm, hl, htok, hr]
  simp only [List.map_cons, List.map_nil, hts, hw, stringsJoin_singleton, List.nil_append]

/-- C19, at the comment `not found`. -/
theorem wrapLine_trailing_comment_witness :
    ',' ∉ "not found ".toList ∧ ¬ occursIn "nowrap".toList "not found ".toList ∧
    wrapLine ("return err // ".toList ++ "not found ".toList) =
      some (("return err // ".toList ++ "not found ".toList).rdropWhile isSpace, none) ∧
    ("return err // ".toList ++ "not found ".toList).rdropWhile isSpace =
      "return err // not found".toList :=
  ⟨by decide, by decide, wrapLine_trailing_comment _ (by decide) (by decide), by decide⟩

/-! ## White space around a text -/

theorem parenDepth_of_all_space (w : GoString) (hw : ∀ c ∈ w, isSpace c = true) :
    parenDepth w = 0 :=
  parenDepth_of_parenFree w
    ⟨fun h => (space_not_special _ (hw _ h)).2.1 rfl, fun h => (space_not_special _ (hw _ h)).2.2 rfl⟩

theorem trimSpace_split (r : GoString) :
    ∃ w1 w2, (∀ c ∈ w1, isSpace c = true) ∧ (∀ c ∈ w2, isSpace c = true) ∧
      r = w1 ++ trimSpace r ++ w2 := by
  obtain ⟨w2, hw2, e⟩ := rdropWhile_split (r.dropWhile isSpace)
  refine ⟨r.takeWhile isSpace, w2, fun c hc => List.mem_takeWhile_imp hc, hw2, ?_⟩
  have := (List.takeWhile_append_dropWhile isSpace r).symm
  rw [e] at this
  rw [trimSpace, List.append_assoc]
  exact this

theorem parenDepth_trimSpace (r : GoString) : parenDepth (trimSpace r) = parenDepth r := by
  obtain ⟨w1, w2, h1, h2, e⟩ := trimSpace_split r
  conv_rhs => rw [e]
  rw [parenDepth_append, parenDepth_append, parenDepth_of_all_space w1 h1,
    parenDepth_of_all_space w2 h2]
  simp

/-! ## Balanced tokens -/

theorem balanced_iff (s : GoString) :
    balanced s ↔ (∀ p, p <+: s → 0 ≤ parenDepth p) ∧ parenDepth s = 0 := by
  unfold balanced
  constructor
  · rintro ⟨h1, h2⟩
    refine ⟨fun p hp => ?_, h2⟩
    rw [List.prefix_iff_eq_take.1 hp]
    exact h1 _ hp.length_le
  · rintro ⟨h1, h2⟩
    exact ⟨fun i _ => h1 _ (List.take_prefix i s), h2⟩

theorem tokens_balanced (s : GoString) : ∀ d : Int,
    (∀ p, p <+: s → 0 ≤ d + parenDepth p) → d + parenDepth s = 0 →
    ((∀ p, p <+: firstTok d s → 0 ≤ d + parenDepth p) ∧ d + parenDepth (firstTok d s) = 0) ∧
    ∀ t ∈ restToks d s, (∀ p, p <+: t → 0 ≤ parenDepth p) ∧ parenDepth t = 0 := by
  induction s with
  | nil =>
    intro d h1 h2
    simp only [firstTok, restToks]
    exact ⟨⟨h1, h2⟩, fun t ht => by cases ht⟩
  | cons c cs ih =>
    intro d h1 h2
    have hd : 0 ≤ d := by simpa [parenDepth] using h1 [] List.nil_prefix
    have h1' : ∀ p, p <+: cs → 0 ≤ nextDepth d c + parenDepth p := by
      intro p hp
      rw [← parenDepth_cons]
      exact h1 (c :: p) ((List.prefix_cons_inj c).2 hp)
    have h2' : nextDepth d c + parenDepth cs = 0 := by rw [← parenDepth_cons]; exact h2
    by_cases hc : c = ',' ∧ d = 0
    · obtain ⟨rfl, rfl⟩ := hc
      have hn : nextDepth 0 ',' = 0 := by decide
      rw [hn] at h1' h2'
      have := ih 0 h1' h2'
      simp only [firstTok, restToks, and_self, if_true]
      refine ⟨⟨fun p hp => ?_, by decide⟩, ?_⟩
      · rw [List.prefix_nil.1 hp]; decide
      · intro t ht
        rcases List.mem_cons.1 ht with rfl | ht
        · have k := this.1
          simp only [zero_add] at k
          exact k
        · exact this.2 t ht
    · have := ih (nextDepth d c) h1' h2'
      simp only [firstTok, restToks, hc, if_false]
      refine ⟨⟨fun p hp => ?_, ?_⟩, this.2⟩
      · rcases List.prefix_cons_iff.1 hp with rfl | ⟨t, rfl, ht⟩
        · simpa [parenDepth] using hd
        · rw [parenDepth_cons]; exact this.1.1 t ht
      · rw [parenDepth_cons]; exact this.1.2

theorem balanced_trimSpace (r : GoString)
    (h : (∀ p, p <+: r → 0 ≤ parenDepth p) ∧ parenDepth r = 0) :
    (∀ p, p <+: trimSpace r → 0 ≤ parenDepth p) ∧ parenDepth (trimSpace r) = 0 := by
  obtain ⟨w1, w2, h1, _, e⟩ := trimSpace_split r
  refine ⟨fun p hp => ?_, by rw [parenDepth_trimSpace]; exact h.2⟩
  have hp' : w1 ++ p <+: r := by
    obtain ⟨q, hq⟩ := hp
    exact ⟨q ++ w2, by rw [e, ← hq]; simp⟩
  have := h.1 _ hp'
  rwa [parenDepth_append, parenDepth_of_all_space w1 h1, zero_add] at this

/-- C11: a comma inside parentheses never splits: when the parentheses of the
argument text are balanced (depth never negative, 0 at the end), every token
of `tokenizeArgs` has balanced parentheses. -/
theorem tokenizeArgs_balanced (s : GoString) (h : balanced s) :
    ∃ toks, tokenizeArgs s = some toks ∧ ∀ t ∈ toks, balanced t := by
  refine ⟨(rawTokens 0 s).map trimSpace, tokenizeArgs_eq s, ?_⟩
  obtain ⟨h1, h2⟩ := (balanced_iff s).1 h
  have := tokens_balanced s 0 (by simpa using h1) (by simpa using h2)
  intro t ht
  obtain ⟨r, hr, rfl⟩ := List.mem_map.1 ht
  rw [balanced_iff]
  apply balanced_trimSpace
  rcases List.mem_cons.1 hr with rfl | hr
  · simpa using this.1
  · exact this.2 r hr

/-- C11, at the text `f(a, b), c`: the tokens are `f(a, b)` and `c`. -/
theorem tokenizeArgs_balanced_witness :
    balanced "f(a, b), c".toList ∧
    (∃ toks, tokenizeArgs "f(a, b), c".toList = some toks ∧ ∀ t ∈ toks, balanced t) ∧
    tokenizeArgs "f(a, b), c".toList = some ["f(a, b)".toList, "c".toList] :=
  ⟨by decide, tokenizeArgs_balanced _ (by decide), by decide⟩

/-! ## Tokenizing the joined tokens again -/

theorem restToks_nil_of_append (a b : GoString) : ∀ d : Int,
    restToks d (a ++ b) = [] → restToks d a = [] := by
  induction a with
  | nil => intro d _; rfl
  | cons c a ih =>
    intro d h
    by_cases hc : c = ',' ∧ d = 0
    · simp [restToks, hc] at h
    · simp only [List.cons_append, restToks, hc, if_false] at h ⊢
      exact ih _ h

theorem passes_of_all_space (w : GoString) (hw : ∀ c ∈ w, isSpace c = true) (d : Int) :
    passes d w d := by
  have := passes_of_no_comma d w (fun h => (space_not_special _ (hw _ h)).1 rfl)
  rwa [parenDepth_of_all_space w hw, add_zero] at this

theorem passes_trimSpace (r : GoString) (d e : Int) (h : passes d r e) :
    passes d (trimSpace r) e := by
  obtain ⟨w1, w2, h1, _, hr⟩ := trimSpace_split r
  obtain ⟨ha, hb⟩ := h
  refine ⟨?_, ?_⟩
  · rw [hr, List.append_assoc, restToks_append w1 _ d (passes_of_all_space w1 h1 d).1,
      (passes_of_all_space w1 h1 d).2] at ha
    exact restToks_nil_of_append _ _ _ ha
  · rw [endDepth_eq, parenDepth_trimSpace, ← endDepth_eq]
    exact hb

theorem tokens_split (s : GoString) : ∀ d : Int,
    restToks d s = [] ∨
    ∃ r s', s = r ++ ',' :: s' ∧ passes d r 0 ∧ firstTok d s = r ∧
      restToks d s = rawTokens 0 s' := by
  induction s with
  | nil => intro d; exact Or.inl rfl
  | cons c cs ih =>
    intro d
    by_cases hc : c = ',' ∧ d = 0
    · obtain ⟨rfl, rfl⟩ := hc
      exact Or.inr ⟨[], cs, rfl, ⟨rfl, rfl⟩, by simp [firstTok], by simp [restToks, rawTokens]⟩
    · rcases ih (nextDepth d c) with h | ⟨r, s', rfl, hp, hf, hr⟩
      · exact Or.inl (by simp only [restToks, hc, if_false]; exact h)
      · refine Or.inr ⟨c :: r, s', rfl, ⟨?_, ?_⟩, ?_, ?_⟩
        · simp only [restToks, hc, if_false]; exact hp.1
        · exact hp.2
        · simp only [firstTok, hc, if_false, hf]
        · simp only [restToks, hc, if_false, hr]

theorem retokenize (n : Nat) : ∀ s : GoString, s.length ≤ n →
    (rawTokens 0 (stringsJoin ((rawTokens 0 s).map trimSpace) ", ".toList)).map trimSpace =
      (rawTokens 0 s).map trimSpace := by
  induction n with
  | zero =>
    intro s hs
    have : s = [] := List.length_eq_zero.1 (Nat.le_zero.1 hs)
    subst this
    decide
  | succ n ih =>
    intro s hs
    rcases tokens_split s 0 with h | ⟨r, s', rfl, hp, hf, hr⟩
    · have e : rawTokens 0 s = [s] := rawTokens_piece_last s h
      have h2 : restToks 0 (trimSpace s) = [] :=
        (passes_trimSpace s 0 _ ⟨h, rfl⟩).1
      rw [e, List.map_cons, List.map_nil, stringsJoin_singleton,
        rawTokens_piece_last _ h2, List.map_cons, List.map_nil, trimSpace_idem]
    · have hl : s'.length ≤ n := by
        simp at hs; omega
      have e : rawTokens 0 (r ++ ',' :: s') = r :: rawTokens 0 s' :=
        rawTokens_piece r s' hp.1 hp.2
      have hp' := passes_trimSpace r 0 0 hp
      have hne : ∃ t ts, (rawTokens 0 s').map trimSpace = t :: ts :=
        ⟨trimSpace (firstTok 0 s'), (restToks 0 s').map trimSpace, rfl⟩
      obtain ⟨t, ts, hts⟩ := hne
      have e2 : stringsJoin (trimSpace r :: (rawTokens 0 s').map trimSpace) ", ".toList =
          trimSpace r ++ ',' :: ' ' ::
            stringsJoin ((rawTokens 0 s').map trimSpace) ", ".toList := by
        rw [hts, stringsJoin_cons_cons]; simp
      rw [e, List.map_cons, e2, rawTokens_piece _ _ hp'.1 hp'.2, List.map_cons,
        rawTokens_space_cons, ih s' hl, trimSpace_idem]

/-- C15: joining the tokens again preserves them: for every argument text,
balanced or not, `tokenizeArgs` of the tokens joined with `, ` gives the same
tokens. -/
theorem tokenizeArgs_rejoin (s : GoString) :
    ∃ toks, tokenizeArgs s = some toks ∧
      tokenizeArgs (stringsJoin toks ", ".toList) = some toks := by
  refine ⟨(rawTokens 0 s).map trimSpace, tokenizeArgs_eq s, ?_⟩
  rw [tokenizeArgs_eq, retokenize s.length s (Nat.le_refl _)]

/-! ## The nesting balance of a line -/

theorem parenDepth_stripSpace (s : GoString) : parenDepth (stripSpace s) = parenDepth s := by
  simp only [parenDepth, stripSpace]
  rw [List.count_filter (by decide), List.count_filter (by decide)]

theorem parenDepth_wrapArg (t : GoString) : parenDepth (wrapArg t) = parenDepth t := by
  unfold wrapArg
  split
  · rw [parenDepth_append, parenDepth_append]
    have h1 : parenDepth "errors.Wrap(".toList = 1 := by decide
    have h2 : parenDepth ")".toList = -1 := by decide
    rw [h1, h2]; omega
  · rfl

theorem parenDepth_join_wrapArg (sep : GoString) : ∀ l : List GoString,
    parenDepth (stringsJoin (l.map wrapArg) sep) = parenDepth (stringsJoin l sep) := by
  intro l
  induction l with
  | nil => rfl
  | cons x l ih =>
    cases l with
    | nil => simp [parenDepth_wrapArg]
    | cons y l =>
      simp only [List.map_cons, stringsJoin_cons_cons, parenDepth_append, parenDepth_wrapArg]
        at ih ⊢
      rw [ih]

theorem parenDepth_collapse (n : Nat) : ∀ s : GoString, s.length ≤ n →
    parenDepth (collapse s) = parenDepth s := by
  induction n with
  | zero =>
    intro s hs
    have : s = [] := List.length_eq_zero.1 (Nat.le_zero.1 hs)
    subst this
    rfl
  | succ n ih =>
    intro s hs
    cases s with
    | nil => rfl
    | cons c cs =>
      have hcs : cs.length ≤ n := by simpa using hs
      cases hm : doubleWrap.matchAt (c :: cs) with
      | none =>
        rw [collapse_of_none c cs hm]
        have e1 := parenDepth_append [c] (collapse cs)
        have e2 := parenDepth_append [c] cs
        simp only [List.singleton_append] at e1 e2
        rw [e1, e2, ih cs hcs]
      | some r =>
        obtain ⟨cap, rest⟩ := r
        obtain ⟨e, _⟩ := matchAt_some _ _ _ _ hm
        have hr : rest.length ≤ n := by
          have := congrArg List.length e
          simp [doubleWrap] at this
          omega
        rw [collapse_of_some _ _ _ hm, e]
        simp only [parenDepth_append, ih rest hr]
        have h1 : parenDepth doubleWrap.lit = 1 := by decide
        have h2 : parenDepth doubleWrap.stop = -2 := by decide
        have h3 : parenDepth "errors.".toList = 0 := by decide
        have h4 : parenDepth ")".toList = -1 := by decide
        rw [h1, h2, h3, h4]; omega

theorem parenDepth_wrapLine (line wl : GoString) (h : wrapLine line = some (wl, none)) :
    parenDepth wl = parenDepth line := by
  rcases wrapLine_cases line with h1 | ⟨rest, hr, _, h1⟩
  · rw [h1] at h
    simp only [Option.some.injEq, Prod.mk.injEq, and_true] at h
    rw [h]
  · rw [h1] at h
    simp only [Option.some.injEq, Prod.mk.injEq, and_true] at h
    subst h
    obtain ⟨w1, w2, hw1, hw2, e⟩ := trimSpace_split line
    have hlead : parenDepth (leadingSpace line) = 0 :=
      parenDepth_of_all_space _ (fun c hc => List.mem_takeWhile_imp hc)
    have hJ : parenDepth
        (stringsJoin (((rawTokens 0 rest).map trimSpace).map wrapArg) ", ".toList) =
        parenDepth rest := by
      rw [parenDepth_join_wrapArg, ← parenDepth_stripSpace, stripSpace_join, rawTokens_join,
        parenDepth_stripSpace]
    have hret : parenDepth "return ".toList = 0 := by decide
    conv_rhs => rw [e, hr]
    simp only [parenDepth_append, hlead, hJ, hret, parenDepth_of_all_space w1 hw1,
      parenDepth_of_all_space w2 hw2]
    omega

/-- C16: the nesting balance is preserved by the per-line processing: on
every line, the number of `(` minus the number of `)` in the result of
`wrapLine` followed by the Collapse Pass equals that of the line. -/
theorem processLine_parenDepth (line : GoString) :
    ∃ out, processLine line = LineResult.written out ∧ parenDepth out = parenDepth line := by
  obtain ⟨wl, hw, hp⟩ := processLine_written line
  exact ⟨collapse wl, hp,
    by rw [parenDepth_collapse wl.length wl (Nat.le_refl _), parenDepth_wrapLine line wl hw]⟩

/-! ## The lines of a file -/

theorem mem_iff_singleton_occurs (c : Char) (s : GoString) : c ∈ s ↔ [c] <:+: s := by
  constructor
  · intro h
    obtain ⟨a, b, e⟩ := List.append_of_mem h
    exact ⟨a, b, by rw [e]; simp⟩
  · intro h
    exact h.subset (List.mem_singleton_self c)

theorem isLine_collapse (s : GoString) (h : isLine s) : isLine (collapse s) := by
  intro hm
  apply h
  rw [mem_iff_singleton_occurs] at hm ⊢
  exact collapse_occurs_of_no_e ['\n'] (by decide) (by decide) s.length s (Nat.le_refl _) hm

theorem isLine_wrapLine (line wl : GoString) (h : wrapLine line = some (wl, none))
    (hl : isLine line) : isLine wl := by
  rcases wrapLine_cases line with h1 | ⟨rest, hr, _, h1⟩
  · rw [h1] at h
    simp only [Option.some.injEq, Prod.mk.injEq, and_true] at h
    rwa [← h]
  · rw [h1] at h
    simp only [Option.some.injEq, Prod.mk.injEq, and_true] at h
    subst h
    obtain ⟨w, hw⟩ := line_eq_of_trim line rest hr
    have hrest : '\n' ∉ rest := by
      intro hm
      apply hl
      rw [hw]
      simp [hm]
    have hlead : '\n' ∉ leadingSpace line :=
      fun hm => hl ((List.takeWhile_prefix isSpace).subset hm)
    have hJ := not_mem_rewriteArgs rest hrest
    intro hm
    rcases List.mem_append.1 hm with hm | hm
    · rcases List.mem_append.1 hm with hm | hm
      · exact hlead hm
      · exact absurd hm (by decide)
    · exact hJ hm

theorem isLine_processLine (line : GoString) (hl : isLine line) :
    ∃ out, processLine line = LineResult.written out ∧ isLine out := by
  obtain ⟨wl, hw, hp⟩ := processLine_written line
  exact ⟨collapse wl, hp, isLine_collapse wl (isLine_wrapLine line wl hw hl)⟩

theorem processLines_done : ∀ l : List GoString, (∀ x ∈ l, isLine x) →
    ∃ out, processLines l = Outcome.done out ∧ out.length = l.length ∧ ∀ y ∈ out, isLine y := by
  intro l
  induction l with
  | nil => intro _; exact ⟨[], rfl, rfl, fun y hy => by cases hy⟩
  | cons x l ih =>
    intro h
    obtain ⟨wl, hp, hwl⟩ := isLine_processLine x (h x (List.mem_cons_self _ _))
    obtain ⟨out, ho, hlen, hall⟩ := ih (fun y hy => h y (List.mem_cons_of_mem _ hy))
    refine ⟨wl :: out, ?_, by simp [hlen], ?_⟩
    · simp only [processLines, hp, ho]
    · intro y hy
      rcases List.mem_cons.1 hy with rfl | hy
      · exact hwl
      · exact hall y hy

theorem splitLines_cons (cur : GoString) (c : Char) (cs : GoString) :
    stringsSplitAux "\n".toList 0 cur (c :: cs) =
      if c = '\n' then cur :: stringsSplitAux "\n".toList 0 [] cs
      else stringsSplitAux "\n".toList 0 (cur ++ [c]) cs := by
  by_cases h : c = '\n'
  · subst h; simp [stringsSplitAux]
  · have h' : ¬ '\n' = c := fun e => h e.symm
    simp [stringsSplitAux, h, h']

theorem splitLines_isLine (s : GoString) : ∀ cur : GoString, isLine cur →
    ∀ p ∈ stringsSplitAux "\n".toList 0 cur s, isLine p := by
  induction s with
  | nil =>
    intro cur hc p hp
    simp only [stringsSplitAux, List.mem_singleton] at hp
    rw [hp]; exact hc
  | cons c cs ih =>
    intro cur hc p hp
    rw [splitLines_cons] at hp
    by_cases h : c = '\n'
    · rw [if_pos h] at hp
      rcases List.mem_cons.1 hp with rfl | hp
      · exact hc
      · exact ih [] (by unfold isLine; simp) p hp
    · rw [if_neg h] at hp
      refine ih (cur ++ [c]) ?_ p hp
      intro hm
      rcases List.mem_append.1 hm with hm | hm
      · exact hc hm
      · exact h (List.mem_singleton.1 hm).symm

theorem splitLines_append (x : GoString) (rest : GoString) : isLine x → ∀ cur : GoString,
    stringsSplitAux "\n".toList 0 cur (x ++ rest) =
      stringsSplitAux "\n".toList 0 (cur ++ x) rest := by
  induction x with
  | nil => intro _ cur; simp
  | cons c x ih =>
    intro h cur
    have hc : ¬ c = '\n' := fun e => h (e ▸ List.mem_cons_self _ _)
    rw [List.cons_append, splitLines_cons, if_neg hc,
      ih (fun hm => h (List.mem_cons_of_mem _ hm))]
    simp

theorem splitLines_join : ∀ l : List GoString, l ≠ [] → (∀ x ∈ l, isLine x) →
    stringsSplit (stringsJoin l "\n".toList) "\n".toList = l := by
  intro l
  induction l with
  | nil => intro h; exact absurd rfl h
  | cons x l ih =>
    intro _ h
    have hx := h x (List.mem_cons_self _ _)
    cases l with
    | nil =>
      have := splitLines_append x [] hx []
      simp only [List.append_nil, List.nil_append] at this
      rw [stringsJoin_singleton, stringsSplit, this]
      rfl
    | cons y l =>
      have e : stringsJoin (x :: y :: l) "\n".toList =
          x ++ '\n' :: stringsJoin (y :: l) "\n".toList := by
        rw [stringsJoin_cons_cons]; simp
      have := ih (by simp) (fun z hz => h z (List.mem_cons_of_mem _ hz))
      rw [stringsSplit] at this
      rw [e, stringsSplit, splitLines_append x _ hx [], List.nil_append, splitLines_cons,
        if_pos rfl, this]

/-- C18: the text transform of the File Driver keeps the line structure: for
every file content the transform succeeds and the text written has as many
lines as the text read, the processed form of a newline-free line being
newline-free. -/
theorem wrapFileText_lines (data : GoString) :
    (∃ out, wrapFileText data = Outcome.done out ∧
      (stringsSplit out "\n".toList).length = (stringsSplit data "\n".toList).length) ∧
    ∀ line, isLine line → ∃ wl, processLine line = LineResult.written wl ∧ isLine wl := by
  refine ⟨?_, isLine_processLine⟩
  have hl : ∀ x ∈ stringsSplit data "\n".toList, isLine x :=
    splitLines_isLine data [] (by unfold isLine; simp)
  obtain ⟨out, ho, hlen, hall⟩ := processLines_done _ hl
  have hne : out ≠ [] := by
    intro e
    rw [e] at hlen
    exact stringsSplitAux_ne_nil _ data 0 [] (List.length_eq_zero.1 hlen.symm)
  refine ⟨stringsJoin out "\n".toList, ?_, ?_⟩
  · simp only [wrapFileText, ho]
  · rw [splitLines_join out hne hall, hlen]

end Errorwrap -- proofs
